import Mathlib

/-!
Verification of the CodeFree server core: a shallow embedding of the entity
store (`server/storage.ts`), the workspace synchronizer (`server/github.ts`)
and the HTTP orchestration routes (`server/routes.ts`, `server/supabaseAuth.ts`),
together with proofs about them.

Modelling conventions:
* JavaScript strings are Lean `String`s; the string operations the code uses
  (`startsWith`, `includes`, `toLowerCase`, `path.extname`, sorting by
  `localeCompare`) are given executable definitions over the character list.
  `localeCompare` ordering is modelled as code-point lexicographic order.
* `Map` objects are association lists in insertion order; `Map.set` replaces
  the entry for an existing key in place and appends otherwise.
* `generateId()` (a random opaque string) and DB-generated ids are modelled by
  a fresh-id counter, ids being `Nat`.
* `new Date()` timestamps are `Nat`s passed in as a `now` parameter.
* `async/await` sequencing is direct state passing; a thrown `Error` is an
  `Except.error` carrying the message.
-/

namespace CodeFree

/-! ### String operations used by the server code -/

/-- Lexicographic comparison of character lists by code point, modelling the
ascending order produced by `sort((a, b) => a.path.localeCompare(b.path))`
and SQL `ORDER BY path`. -/
def lexLe : List Char → List Char → Bool
  | [], _ => true
  | _ :: _, [] => false
  | a :: as, b :: bs =>
    if a.toNat < b.toNat then true
    else if b.toNat < a.toNat then false
    else lexLe as bs

/-- String comparison by code points (model of `localeCompare`-ascending). -/
def strLe (a b : String) : Bool := lexLe a.data b.data

/-- JS `String.prototype.startsWith`, first list starts with the second. -/
def listStartsWith : List Char → List Char → Bool
  | _, [] => true
  | [], _ :: _ => false
  | a :: as, b :: bs => a == b && listStartsWith as bs

/-- JS `relativePath.startsWith(p)`. -/
def strStartsWith (s p : String) : Bool := listStartsWith s.data p.data

/-- Substring occurrence test on character lists (JS `String.prototype.includes`). -/
def listContainsSub (s sub : List Char) : Bool :=
  match s with
  | [] => listStartsWith [] sub
  | _ :: rest => listStartsWith s sub || listContainsSub rest sub

/-- JS `relativePath.includes(sub)`. -/
def strContainsSub (s sub : String) : Bool := listContainsSub s.data sub.data

/-- ASCII lower-casing of one character (JS `toLowerCase` on the ASCII
extensions the code feeds it). -/
def toLowerChar (c : Char) : Char :=
  if 'A' ≤ c ∧ c ≤ 'Z' then Char.ofNat (c.toNat + 32) else c

/-- JS `ext.toLowerCase()`. -/
def strToLower (s : String) : String := String.mk (s.data.map toLowerChar)

/-- Split a character list at every occurrence of the character `c`. -/
def splitOnCharAux (c : Char) : List Char → List Char → List (List Char)
  | [], acc => [acc.reverse]
  | x :: xs, acc =>
    if x == c then acc.reverse :: splitOnCharAux c xs []
    else splitOnCharAux c xs (x :: acc)

/-- Split a character list on a separator character. -/
def splitOnChar (c : Char) (s : List Char) : List (List Char) := splitOnCharAux c s []

/-- Node's `path.extname(p)`: the extension of the final path component,
from its last dot; a dot at index 0 of the component does not start an
extension (`extname ".gitignore" = ""`, `extname "a.b.c" = ".c"`). -/
def extname (p : String) : String :=
  let base := (splitOnChar '/' p.data).getLastD []
  let parts := splitOnChar '.' base
  if parts.length ≤ 1 then ""
  else if parts.headD [] = [] ∧ parts.length = 2 then ""
  else String.mk ('.' :: parts.getLastD [])

/-! ### Entity records (`@shared/schema` row types as used by the server) -/

/-- A `users` row as constructed by `MemStorage.createUser`. -/
structure User where
  id : Nat
  email : Option String
  firstName : Option String
  lastName : Option String
  profileImageUrl : Option String
  hashedPassword : Option String
  credits : Int
  stripeCustomerId : Option String
  stripeSubscriptionId : Option String
  subscriptionStatus : String
  githubAccessToken : Option String
  githubUsername : Option String
  createdAt : Nat
  updatedAt : Nat
deriving Repr, DecidableEq

/-- `InsertUser`: the caller-supplied fields of a new user; absent fields are
`none`. -/
structure InsertUser where
  email : Option String := none
  firstName : Option String := none
  lastName : Option String := none
  profileImageUrl : Option String := none
  hashedPassword : Option String := none
  credits : Option Int := none
  stripeCustomerId : Option String := none
  stripeSubscriptionId : Option String := none
  subscriptionStatus : Option String := none
  githubAccessToken : Option String := none
  githubUsername : Option String := none
deriving Repr, DecidableEq

/-- A `projects` row as constructed by `MemStorage.createProject`. -/
structure Project where
  id : Nat
  userId : Nat
  name : String
  description : Option String
  template : String
  status : String
  deployUrl : Option String
  isPublic : Bool
  githubRepoUrl : Option String
  githubBranch : String
  githubAccessToken : Option String
  lastSyncAt : Option Nat
  gitStatus : String
  createdAt : Nat
  updatedAt : Nat
deriving Repr, DecidableEq

/-- `InsertProject`: caller-supplied fields of a new project. Fields that the
schema defaults to NULL are plain `Option`; fields with a non-null default are
`Option` where `none` means "not supplied, use the default". -/
structure InsertProject where
  userId : Nat
  name : String
  description : Option String := none
  template : Option String := none
  status : Option String := none
  deployUrl : Option String := none
  isPublic : Option Bool := none
  githubRepoUrl : Option String := none
  githubBranch : Option String := none
  githubAccessToken : Option String := none
  lastSyncAt : Option Nat := none
  gitStatus : Option String := none
deriving Repr, DecidableEq

/-- `Partial<InsertProject>` as consumed by `updateProject`: an outer `none`
means the field is absent from the patch (kept), `some` overwrites; for
nullable columns the inner `Option` is the stored value. -/
structure ProjectPatch where
  userId : Option Nat := none
  name : Option String := none
  description : Option (Option String) := none
  template : Option String := none
  status : Option String := none
  deployUrl : Option (Option String) := none
  isPublic : Option Bool := none
  githubRepoUrl : Option (Option String) := none
  githubBranch : Option String := none
  githubAccessToken : Option (Option String) := none
  lastSyncAt : Option (Option Nat) := none
  gitStatus : Option String := none
deriving Repr, DecidableEq

/-- A `projectFiles` row. -/
structure ProjectFile where
  id : Nat
  projectId : Nat
  path : String
  content : String
  language : String
  createdAt : Nat
  updatedAt : Nat
deriving Repr, DecidableEq

/-- `InsertProjectFile` as passed to `createOrUpdateProjectFile`. -/
structure InsertProjectFile where
  projectId : Nat
  path : String
  content : Option String := none
  language : Option String := none
deriving Repr, DecidableEq

/-- An `aiGenerations` row. -/
structure AiGeneration where
  id : Nat
  userId : Nat
  projectId : Option Nat
  prompt : String
  response : Option String
  creditsUsed : Int
  model : String
  createdAt : Nat
deriving Repr, DecidableEq

/-- `InsertAiGeneration`. -/
structure InsertAiGeneration where
  userId : Nat
  projectId : Option Nat := none
  prompt : String
  response : Option String := none
  creditsUsed : Option Int := none
  model : Option String := none
deriving Repr, DecidableEq

/-! ### `MemStorage` (the volatile in-memory backend) -/

/-- The private `Map`s of a `MemStorage` instance, as insertion-ordered
association lists, plus the fresh-id counter modelling `generateId()`. -/
structure MemStore where
  users : List User
  usersByEmail : List (String × User)
  projects : List Project
  projectFiles : List ProjectFile
  aiGenerations : List AiGeneration
  nextId : Nat
deriving Repr, DecidableEq

/-- The store of a freshly constructed `MemStorage`. -/
def emptyMemStore : MemStore :=
  { users := [], usersByEmail := [], projects := [], projectFiles := [],
    aiGenerations := [], nextId := 0 }

/-- Key test for the `projectFiles` map key `` `${projectId}:${path}` ``. -/
def filePred (pid : Nat) (p : String) (f : ProjectFile) : Bool :=
  decide (f.projectId = pid ∧ f.path = p)

/-- `MemStorage.getProjectFile(projectId, path)`. -/
def memGetProjectFile (st : MemStore) (pid : Nat) (p : String) : Option ProjectFile :=
  st.projectFiles.find? (filePred pid p)

/-- `MemStorage.createOrUpdateProjectFile`: look up the `(projectId, path)`
key; when present build the row reusing the existing `id`/`createdAt` and
`Map.set` it back (replacement in place); when absent insert a fresh row. -/
def memCreateOrUpdateProjectFile (st : MemStore) (fd : InsertProjectFile) (now : Nat) :
    MemStore × ProjectFile :=
  match memGetProjectFile st fd.projectId fd.path with
  | some existing =>
    let f : ProjectFile :=
      { id := existing.id, projectId := fd.projectId, path := fd.path,
        content := fd.content.getD "", language := fd.language.getD "javascript",
        createdAt := existing.createdAt, updatedAt := now }
    ({ st with projectFiles :=
        st.projectFiles.map fun g => if filePred fd.projectId fd.path g then f else g }, f)
  | none =>
    let f : ProjectFile :=
      { id := st.nextId, projectId := fd.projectId, path := fd.path,
        content := fd.content.getD "", language := fd.language.getD "javascript",
        createdAt := now, updatedAt := now }
    ({ st with projectFiles := st.projectFiles ++ [f], nextId := st.nextId + 1 }, f)

/-- `MemStorage.getProjectFiles(projectId)`: filter by project, sort ascending
by path (the `localeCompare` comparator, modelled as code-point order). -/
def memGetProjectFiles (st : MemStore) (pid : Nat) : List ProjectFile :=
  (st.projectFiles.filter fun f => f.projectId == pid).mergeSort
    fun a b => strLe a.path b.path

/-- `MemStorage.deleteProjectFile(projectId, path)`. -/
def memDeleteProjectFile (st : MemStore) (pid : Nat) (p : String) : MemStore :=
  { st with projectFiles := st.projectFiles.filter fun f => !filePred pid p f }

/-- `MemStorage.getProject(id)`. -/
def memGetProject (st : MemStore) (pid : Nat) : Option Project :=
  st.projects.find? fun p => p.id == pid

/-- `MemStorage.createProject`, with the schema defaults of the source. -/
def memCreateProject (st : MemStore) (pd : InsertProject) (now : Nat) :
    MemStore × Project :=
  let p : Project :=
    { id := st.nextId, userId := pd.userId, name := pd.name,
      description := pd.description,
      template := pd.template.getD "react",
      status := pd.status.getD "draft",
      deployUrl := pd.deployUrl,
      isPublic := pd.isPublic.getD false,
      githubRepoUrl := pd.githubRepoUrl,
      githubBranch := pd.githubBranch.getD "main",
      githubAccessToken := pd.githubAccessToken,
      lastSyncAt := pd.lastSyncAt,
      gitStatus := pd.gitStatus.getD "unconnected",
      createdAt := now, updatedAt := now }
  ({ st with projects := st.projects ++ [p], nextId := st.nextId + 1 }, p)

/-- The spread `{ ...project, ...updates, updatedAt: new Date() }` of
`MemStorage.updateProject`. -/
def applyProjectPatch (p : Project) (u : ProjectPatch) (now : Nat) : Project :=
  { id := p.id,
    userId := u.userId.getD p.userId,
    name := u.name.getD p.name,
    description := u.description.getD p.description,
    template := u.template.getD p.template,
    status := u.status.getD p.status,
    deployUrl := u.deployUrl.getD p.deployUrl,
    isPublic := u.isPublic.getD p.isPublic,
    githubRepoUrl := u.githubRepoUrl.getD p.githubRepoUrl,
    githubBranch := u.githubBranch.getD p.githubBranch,
    githubAccessToken := u.githubAccessToken.getD p.githubAccessToken,
    lastSyncAt := u.lastSyncAt.getD p.lastSyncAt,
    gitStatus := u.gitStatus.getD p.gitStatus,
    createdAt := p.createdAt, updatedAt := now }

/-- `MemStorage.updateProject`: throws `"Project not found"` when the id is
absent, otherwise merges the patch and `Map.set`s the row back. -/
def memUpdateProject (st : MemStore) (pid : Nat) (u : ProjectPatch) (now : Nat) :
    Except String (MemStore × Project) :=
  match memGetProject st pid with
  | none => .error "Project not found"
  | some p =>
    let p2 := applyProjectPatch p u now
    .ok ({ st with projects := st.projects.map fun q => if q.id == pid then p2 else q }, p2)

/-- `MemStorage.deleteProject(id)`: drop the project and every file row whose
`projectId` matches. -/
def memDeleteProject (st : MemStore) (pid : Nat) : MemStore :=
  { st with
    projects := st.projects.filter fun p => !(p.id == pid),
    projectFiles := st.projectFiles.filter fun f => !(f.projectId == pid) }

/-- `MemStorage.getUser(id)`. -/
def memGetUser (st : MemStore) (uid : Nat) : Option User :=
  st.users.find? fun u => u.id == uid

/-- `MemStorage.getUserByEmail(email)`. -/
def memGetUserByEmail (st : MemStore) (e : String) : Option User :=
  (st.usersByEmail.find? fun q => decide (q.1 = e)).map fun q => q.2

/-- `Map.set` on the `users` map keyed by id. -/
def usersSet (l : List User) (u : User) : List User :=
  if l.any fun v => v.id == u.id then l.map fun v => if v.id == u.id then u else v
  else l ++ [u]

/-- `Map.set` on the `usersByEmail` map keyed by email. -/
def emailMapSet (l : List (String × User)) (e : String) (u : User) :
    List (String × User) :=
  if l.any fun q => decide (q.1 = e) then
    l.map fun q => if q.1 = e then (e, u) else q
  else l ++ [(e, u)]

/-- The shared tail of every `MemStorage` user write:
`this.users.set(user.id, user); if (user.email) this.usersByEmail.set(user.email, user)`. -/
def setUserInMaps (st : MemStore) (u : User) : MemStore :=
  let st1 := { st with users := usersSet st.users u }
  match u.email with
  | some e => { st1 with usersByEmail := emailMapSet st1.usersByEmail e u }
  | none => st1

/-- `MemStorage.createUser`, with the source's defaults
(`credits ?? 1000`, `subscriptionStatus ?? "free"`). -/
def memCreateUser (st : MemStore) (d : InsertUser) (now : Nat) : MemStore × User :=
  let u : User :=
    { id := st.nextId, email := d.email, firstName := d.firstName,
      lastName := d.lastName, profileImageUrl := d.profileImageUrl,
      hashedPassword := d.hashedPassword,
      credits := d.credits.getD 1000,
      stripeCustomerId := d.stripeCustomerId,
      stripeSubscriptionId := d.stripeSubscriptionId,
      subscriptionStatus := d.subscriptionStatus.getD "free",
      githubAccessToken := d.githubAccessToken,
      githubUsername := d.githubUsername,
      createdAt := now, updatedAt := now }
  (setUserInMaps { st with nextId := st.nextId + 1 } u, u)

/-- `MemStorage.updateUserCredits`: throws `"User not found"` on an absent id,
otherwise replaces `credits` and touches `updatedAt`. -/
def memUpdateUserCredits (st : MemStore) (uid : Nat) (credits : Int) (now : Nat) :
    Except String (MemStore × User) :=
  match memGetUser st uid with
  | none => .error "User not found"
  | some u =>
    let u2 : User := { u with credits := credits, updatedAt := now }
    .ok (setUserInMaps st u2, u2)

/-- `MemStorage.createAiGeneration`. -/
def memCreateAiGeneration (st : MemStore) (d : InsertAiGeneration) (now : Nat) :
    MemStore × AiGeneration :=
  let g : AiGeneration :=
    { id := st.nextId, userId := d.userId, projectId := d.projectId,
      prompt := d.prompt, response := d.response,
      creditsUsed := d.creditsUsed.getD 0, model := d.model.getD "gpt-4o",
      createdAt := now }
  ({ st with aiGenerations := st.aiGenerations ++ [g], nextId := st.nextId + 1 }, g)

/-! ### `DatabaseStorage` (the durable relational backend)

Each drizzle query is modelled by its effect on the table row lists.
`update ... returning()` destructures the first returned row; on an empty
result the destructured variable is `undefined`, modelled as `none` — no
exception is thrown. -/

/-- The relational tables. -/
structure DbStore where
  users : List User
  projects : List Project
  projectFiles : List ProjectFile
  aiGenerations : List AiGeneration
deriving Repr, DecidableEq

/-- An empty database. -/
def emptyDbStore : DbStore :=
  { users := [], projects := [], projectFiles := [], aiGenerations := [] }

/-- `DatabaseStorage.updateUserCredits`:
`db.update(users).set({credits, updatedAt}).where(eq(users.id, userId)).returning()`
followed by `const [user] = ...; return user`. No row matching the id means an
empty `returning()` result: the function completes normally and returns
`undefined` (`none`), with the table unchanged. -/
def dbUpdateUserCredits (db : DbStore) (uid : Nat) (credits : Int) (now : Nat) :
    DbStore × Option User :=
  let upd : User → User := fun u => { u with credits := credits, updatedAt := now }
  let returned := (db.users.filter fun u => u.id == uid).map upd
  ({ db with users := db.users.map fun u => if u.id == uid then upd u else u },
   returned.head?)

/-- `DatabaseStorage.getProjectFiles(projectId)`:
`select ... where eq(projectId) orderBy(projectFiles.path)`. -/
def dbGetProjectFiles (db : DbStore) (pid : Nat) : List ProjectFile :=
  (db.projectFiles.filter fun f => f.projectId == pid).mergeSort
    fun a b => strLe a.path b.path

/-- `DatabaseStorage.getProjectFile(projectId, path)`. -/
def dbGetProjectFile (db : DbStore) (pid : Nat) (p : String) : Option ProjectFile :=
  (db.projectFiles.filter (filePred pid p)).head?

/-- `DatabaseStorage.createOrUpdateProjectFile`: check existence with
`getProjectFile`; when present, `update ... set({content, language, updatedAt})`
on the `(projectId, path)` key (a drizzle `set` skips a column whose value is
`undefined`, keeping the stored value); when absent, `insert ... values(file)`
with the schema defaults. The DB-generated id is modelled by the `freshId`
argument. -/
def dbCreateOrUpdateProjectFile (db : DbStore) (fd : InsertProjectFile)
    (freshId now : Nat) : DbStore × Option ProjectFile :=
  match dbGetProjectFile db fd.projectId fd.path with
  | some _ =>
    let upd : ProjectFile → ProjectFile := fun g =>
      { g with content := fd.content.getD g.content,
               language := fd.language.getD g.language, updatedAt := now }
    let returned := (db.projectFiles.filter (filePred fd.projectId fd.path)).map upd
    ({ db with projectFiles :=
        db.projectFiles.map fun g => if filePred fd.projectId fd.path g then upd g else g },
     returned.head?)
  | none =>
    let f : ProjectFile :=
      { id := freshId, projectId := fd.projectId, path := fd.path,
        content := fd.content.getD "", language := fd.language.getD "javascript",
        createdAt := now, updatedAt := now }
    ({ db with projectFiles := db.projectFiles ++ [f] }, some f)

/-- Modelled from the spec: `DatabaseStorage.deleteProject` runs only
`db.delete(projects).where(eq(projects.id, id))`; the removal of the project's
file rows relies on the relational schema's foreign key from
`projectFiles.projectId` to `projects.id`. The schema module
(`@shared/schema`) is not under src/; the spec states that deleting a Project
"cascades to all its ProjectFile rows" with the cascade "enforced by ... a
foreign-key engine" in the durable backend, so the FK is modelled as
ON DELETE CASCADE. -/
def dbDeleteProject (db : DbStore) (pid : Nat) : DbStore :=
  { db with
    projects := db.projects.filter fun p => !(p.id == pid),
    projectFiles := db.projectFiles.filter fun f => !(f.projectId == pid) }

/-! ### `GitHubService` workspace synchronization (`server/github.ts`) -/

/-- A materialized workspace directory under `temp/git-workspaces/<projectId>`,
as the flat file list the recursive walk `getAllFilesInDirectory` produces:
`(path relative to the workspace root, file content)`. -/
abbrev Workspace := List (String × String)

/-- `GitHubService.getLanguageFromExtension`: the fixed extension-to-language
table, keyed on the lower-cased extension, defaulting to `"text"`. -/
def getLanguageFromExtension (ext : String) : String :=
  let e := strToLower ext
  if e = ".js" then "javascript"
  else if e = ".jsx" then "javascript"
  else if e = ".ts" then "typescript"
  else if e = ".tsx" then "typescript"
  else if e = ".py" then "python"
  else if e = ".java" then "java"
  else if e = ".cpp" then "cpp"
  else if e = ".c" then "c"
  else if e = ".css" then "css"
  else if e = ".html" then "html"
  else if e = ".json" then "json"
  else if e = ".md" then "markdown"
  else if e = ".yml" then "yaml"
  else if e = ".yaml" then "yaml"
  else if e = ".xml" then "xml"
  else if e = ".sql" then "sql"
  else if e = ".sh" then "bash"
  else if e = ".rb" then "ruby"
  else if e = ".php" then "php"
  else if e = ".go" then "go"
  else if e = ".rs" then "rust"
  else "text"

/-- The skip test of `syncWorkspaceToProject`:
`relativePath.startsWith('.git') || relativePath.includes('node_modules')`. -/
def skippedPath (relativePath : String) : Bool :=
  strStartsWith relativePath ".git" || strContainsSub relativePath "node_modules"

/-- `GitHubService.syncProjectToWorkspace` (materialize): write every stored
file of the project, in `getProjectFiles` order, to its relative path under
the workspace root (`file.content || ''` equals the stored content, which is
never null in the volatile backend). The resulting directory tree, read back
as a flat file list, is returned. -/
def syncProjectToWorkspace (st : MemStore) (pid : Nat) : Workspace :=
  (memGetProjectFiles st pid).map fun f => (f.path, f.content)

/-- The loop body of `syncWorkspaceToProject` for one walked file: skip it
when its relative path starts with `.git` or contains `node_modules`,
otherwise upsert it with the language inferred from its extension and collect
the returned row. -/
def syncStep (pid now : Nat) (acc : MemStore × List ProjectFile)
    (e : String × String) : MemStore × List ProjectFile :=
  if skippedPath e.1 then acc
  else
    let r := memCreateOrUpdateProjectFile acc.1
      { projectId := pid, path := e.1, content := some e.2,
        language := some (getLanguageFromExtension (extname e.1)) } now
    (r.1, acc.2 ++ [r.2])

/-- `GitHubService.syncWorkspaceToProject` (dematerialize): walk the workspace
file list, applying `syncStep` to every entry. -/
def syncWorkspaceToProject (st : MemStore) (pid : Nat) (ws : Workspace) (now : Nat) :
    MemStore × List ProjectFile :=
  ws.foldl (syncStep pid now) (st, [])

/-! ### HTTP orchestration routes (`server/routes.ts`, `server/supabaseAuth.ts`)

Each handler is a function of the store and the request data; external
collaborators (the git subprocess, the model APIs, `bcrypt`) enter as
parameters describing their outcome. The response and the project
`gitStatus` writes are collected as an event list, in emission order. -/

/-- Observable actions of a request handler, in the order they happen. -/
inductive RouteEvent where
  | setGitStatus (pid : Nat) (s : String)
  | respond (code : Nat)
  | unhandled
deriving Repr, DecidableEq

/-- Store writes issued by an AI route, in order. -/
inductive StoreWrite where
  | updateUserCredits (userId : Nat) (credits : Int)
  | createAiGeneration (g : InsertAiGeneration)
deriving Repr, DecidableEq

/-- Modelled from the spec: `insertProjectSchema` (a zod schema defined in
`@shared/schema`, which is not under src/) validates a project payload. The
spec's data model lists the Project fields a payload may carry — including
`gitStatus` — so on a well-typed payload the parse is the identity; a parse
failure is a 500 response, not modelled because the input here is already
typed. -/
def insertProjectSchemaParse (body : InsertProject) : InsertProject := body

/-- Modelled from the spec: `insertProjectSchema.partial()` likewise passes a
well-typed partial patch through unchanged. -/
def insertProjectSchemaPartialParse (patch : ProjectPatch) : ProjectPatch := patch

/-- `getInitialFiles(template)` from `server/routes.ts`:
`(path, content, language)` triples. -/
def getInitialFiles (template : String) : List (String × String × String) :=
  if template = "react" then
    [("src/App.jsx",
      "import React from \x27react\x27;\nimport \x27./App.css\x27;\n\nfunction App() \x7b\n  return (\n    <div className=\"App\">\n      <header className=\"App-header\">\n        <h1>Welcome to Your React App</h1>\n        <p>Start building something amazing!</p>\n      </header>\n    </div>\n  );\n\x7d\n\nexport default App;",
      "javascript"),
     ("src/App.css",
      ".App \x7b\n  text-align: center;\n\x7d\n\n.App-header \x7b\n  background-color: #282c34;\n  padding: 20px;\n  color: white;\n  min-height: 100vh;\n  display: flex;\n  flex-direction: column;\n  align-items: center;\n  justify-content: center;\n\x7d\n\nh1 \x7b\n  margin-bottom: 16px;\n\x7d",
      "css"),
     ("package.json",
      "\x7b\n  \"name\": \"react-app\",\n  \"version\": \"1.0.0\",\n  \"type\": \"module\",\n  \"scripts\": \x7b\n    \"dev\": \"vite\",\n    \"build\": \"vite build\",\n    \"preview\": \"vite preview\"\n  \x7d,\n  \"dependencies\": \x7b\n    \"react\": \"^18.2.0\",\n    \"react-dom\": \"^18.2.0\"\n  \x7d,\n  \"devDependencies\": \x7b\n    \"@vitejs/plugin-react\": \"^4.0.0\",\n    \"vite\": \"^4.4.0\"\n  \x7d\n\x7d",
      "json")]
  else
    [("index.html",
      "<!DOCTYPE html>\n<html lang=\"en\">\n<head>\n    <meta charset=\"UTF-8\">\n    <meta name=\"viewport\" content=\"width=device-width, initial-scale=1.0\">\n    <title>My Project</title>\n</head>\n<body>\n    <h1>Hello World!</h1>\n    <p>Welcome to your new project.</p>\n</body>\n</html>",
      "html")]

/-- `POST /api/projects`: parse `{...req.body, userId}`, create the project,
then upsert the initial files of `project.template || 'react'`. -/
def createProjectRoute (st : MemStore) (uid : Nat) (body : InsertProject) (now : Nat) :
    MemStore × List RouteEvent :=
  let pd := insertProjectSchemaParse { body with userId := uid }
  let r := memCreateProject st pd now
  let tmpl := if r.2.template = "" then "react" else r.2.template
  let st2 := (getInitialFiles tmpl).foldl
    (fun acc f => (memCreateOrUpdateProjectFile acc
      { projectId := r.2.id, path := f.1, content := some f.2.1,
        language := some f.2.2 } now).1)
    r.1
  (st2, [.respond 200])

/-- `PUT /api/projects/:id`: 404 when absent, 403 when not owned, otherwise
apply the parsed partial patch via `updateProject` (500 if the store throws). -/
def updateProjectRoute (st : MemStore) (pid uid : Nat) (patch : ProjectPatch)
    (now : Nat) : MemStore × List RouteEvent :=
  match memGetProject st pid with
  | none => (st, [.respond 404])
  | some project =>
    if project.userId ≠ uid then (st, [.respond 403])
    else
      match memUpdateProject st pid (insertProjectSchemaPartialParse patch) now with
      | .error _ => (st, [.respond 500])
      | .ok r => (r.1, [.respond 200])

/-- `POST /api/projects/:id/github/connect`: after the ownership checks,
require a truthy `repoUrl` (400 otherwise), then record the remote URL,
branch (default `main`), `gitStatus: 'connected'` and `lastSyncAt`. -/
def githubConnectRoute (st : MemStore) (pid uid : Nat) (repoUrl : Option String)
    (branch : Option String) (now : Nat) : MemStore × List RouteEvent :=
  match memGetProject st pid with
  | none => (st, [.respond 404])
  | some project =>
    if project.userId ≠ uid then (st, [.respond 403])
    else if repoUrl.getD "" = "" then (st, [.respond 400])
    else
      match memUpdateProject st pid
        { githubRepoUrl := some repoUrl, githubBranch := some (branch.getD "main"),
          gitStatus := some "connected", lastSyncAt := some (some now) } now with
      | .error _ => (st, [.respond 500])
      | .ok r => (r.1, [.setGitStatus pid "connected", .respond 200])

/-- `POST /api/projects/:id/github/clone`: checks (404 / 403 / 400 for a
missing GitHub token or repo URL), then set `gitStatus: 'syncing'`, clone and
re-import the workspace, and finish with `connected` on success or — in the
`catch` — `error` followed by the 500 response. `wsSynced` is the file list
the re-import walk saw before control left the try block (the full clone on
success, the partial state on failure), and `gitOk` whether the git work and
walk completed. A throw from a companion `updateProject` would escape the
handler unanswered (`unhandled`). -/
def githubCloneRoute (st : MemStore) (pid uid : Nat) (wsSynced : Workspace)
    (gitOk : Bool) (now : Nat) : MemStore × List RouteEvent :=
  match memGetProject st pid with
  | none => (st, [.respond 404])
  | some project =>
    if project.userId ≠ uid then (st, [.respond 403])
    else
      match memGetUser st uid with
      | none => (st, [.respond 400])
      | some user =>
        if user.githubAccessToken.getD "" = "" then (st, [.respond 400])
        else if project.githubRepoUrl.getD "" = "" then (st, [.respond 400])
        else
          match memUpdateProject st pid { gitStatus := some "syncing" } now with
          | .error _ => (st, [.unhandled])
          | .ok r1 =>
            let st2 := (syncWorkspaceToProject r1.1 pid wsSynced now).1
            if gitOk then
              match memUpdateProject st2 pid
                { gitStatus := some "connected", lastSyncAt := some (some now) } now with
              | .error _ => (st2, [.setGitStatus pid "syncing", .unhandled])
              | .ok r2 =>
                (r2.1, [.setGitStatus pid "syncing", .setGitStatus pid "connected",
                        .respond 200])
            else
              match memUpdateProject st2 pid { gitStatus := some "error" } now with
              | .error _ => (st2, [.setGitStatus pid "syncing", .unhandled])
              | .ok r2 =>
                (r2.1, [.setGitStatus pid "syncing", .setGitStatus pid "error",
                        .respond 500])

/-- `POST /api/projects/:id/github/push`: same checks, `syncing`, then
materialize the store to the workspace (no store change) and push; `connected`
on success, in the `catch` `error` then the 500 response. -/
def githubPushRoute (st : MemStore) (pid uid : Nat) (gitOk : Bool) (now : Nat) :
    MemStore × List RouteEvent :=
  match memGetProject st pid with
  | none => (st, [.respond 404])
  | some project =>
    if project.userId ≠ uid then (st, [.respond 403])
    else
      match memGetUser st uid with
      | none => (st, [.respond 400])
      | some user =>
        if user.githubAccessToken.getD "" = "" then (st, [.respond 400])
        else if project.githubRepoUrl.getD "" = "" then (st, [.respond 400])
        else
          match memUpdateProject st pid { gitStatus := some "syncing" } now with
          | .error _ => (st, [.unhandled])
          | .ok r1 =>
            if gitOk then
              match memUpdateProject r1.1 pid
                { gitStatus := some "connected", lastSyncAt := some (some now) } now with
              | .error _ => (r1.1, [.setGitStatus pid "syncing", .unhandled])
              | .ok r2 =>
                (r2.1, [.setGitStatus pid "syncing", .setGitStatus pid "connected",
                        .respond 200])
            else
              match memUpdateProject r1.1 pid { gitStatus := some "error" } now with
              | .error _ => (r1.1, [.setGitStatus pid "syncing", .unhandled])
              | .ok r2 =>
                (r2.1, [.setGitStatus pid "syncing", .setGitStatus pid "error",
                        .respond 500])

/-- `POST /api/projects/:id/github/pull`: same shape as clone (pull instead of
clone, then re-import the workspace). -/
def githubPullRoute (st : MemStore) (pid uid : Nat) (wsSynced : Workspace)
    (gitOk : Bool) (now : Nat) : MemStore × List RouteEvent :=
  match memGetProject st pid with
  | none => (st, [.respond 404])
  | some project =>
    if project.userId ≠ uid then (st, [.respond 403])
    else
      match memGetUser st uid with
      | none => (st, [.respond 400])
      | some user =>
        if user.githubAccessToken.getD "" = "" then (st, [.respond 400])
        else if project.githubRepoUrl.getD "" = "" then (st, [.respond 400])
        else
          match memUpdateProject st pid { gitStatus := some "syncing" } now with
          | .error _ => (st, [.unhandled])
          | .ok r1 =>
            let st2 := (syncWorkspaceToProject r1.1 pid wsSynced now).1
            if gitOk then
              match memUpdateProject st2 pid
                { gitStatus := some "connected", lastSyncAt := some (some now) } now with
              | .error _ => (st2, [.setGitStatus pid "syncing", .unhandled])
              | .ok r2 =>
                (r2.1, [.setGitStatus pid "syncing", .setGitStatus pid "connected",
                        .respond 200])
            else
              match memUpdateProject st2 pid { gitStatus := some "error" } now with
              | .error _ => (st2, [.setGitStatus pid "syncing", .unhandled])
              | .ok r2 =>
                (r2.1, [.setGitStatus pid "syncing", .setGitStatus pid "error",
                        .respond 500])

/-- `DELETE /api/projects/:id/github/disconnect`: clear the remote URL, reset
the branch, drop the project-scoped credential and `lastSyncAt`, and set
`gitStatus: 'unconnected'`. -/
def githubDisconnectRoute (st : MemStore) (pid uid : Nat) (now : Nat) :
    MemStore × List RouteEvent :=
  match memGetProject st pid with
  | none => (st, [.respond 404])
  | some project =>
    if project.userId ≠ uid then (st, [.respond 403])
    else
      match memUpdateProject st pid
        { githubRepoUrl := some none, githubBranch := some "main",
          githubAccessToken := some none, lastSyncAt := some none,
          gitStatus := some "unconnected" } now with
      | .error _ => (st, [.respond 500])
      | .ok r => (r.1, [.setGitStatus pid "unconnected", .respond 200])

/-- Outcome of the external `generateCode` call (`server/openai.ts`). -/
structure GenerateCodeResult where
  code : String
  explanation : String
  creditsUsed : Int
deriving Repr, DecidableEq

/-- Outcome of the external `chatWithAI` call. -/
structure ChatResult where
  response : String
  creditsUsed : Int
deriving Repr, DecidableEq

/-- `POST /api/ai/generate`: fetch the user; respond 400 "Insufficient
credits" when the user is missing or `credits < 10`, before the model call
and before any store write; otherwise call the model, deduct
`credits - result.creditsUsed` and insert the `AiGeneration` record. The
third component lists the store writes the handler issued, in order. -/
def aiGenerateRoute (st : MemStore) (uid : Nat) (prompt : String)
    (projectId : Option Nat) (result : GenerateCodeResult) (now : Nat) :
    MemStore × Nat × List StoreWrite :=
  match memGetUser st uid with
  | none => (st, 400, [])
  | some user =>
    if user.credits < 10 then (st, 400, [])
    else
      let gen : InsertAiGeneration :=
        { userId := uid, projectId := projectId, prompt := prompt,
          response := some result.explanation,
          creditsUsed := some result.creditsUsed, model := some "gpt-4o" }
      match memUpdateUserCredits st uid (user.credits - result.creditsUsed) now with
      | .error _ =>
        (st, 500, [.updateUserCredits uid (user.credits - result.creditsUsed)])
      | .ok r1 =>
        let st2 := (memCreateAiGeneration r1.1 gen now).1
        (st2, 200,
         [.updateUserCredits uid (user.credits - result.creditsUsed),
          .createAiGeneration gen])

/-- `POST /api/ai/chat`: as `generate` with cost threshold 5; the prompt
recorded is the last message's content (or `""`). -/
def aiChatRoute (st : MemStore) (uid : Nat) (messages : List String)
    (projectId : Option Nat) (result : ChatResult) (now : Nat) :
    MemStore × Nat × List StoreWrite :=
  match memGetUser st uid with
  | none => (st, 400, [])
  | some user =>
    if user.credits < 5 then (st, 400, [])
    else
      let gen : InsertAiGeneration :=
        { userId := uid, projectId := projectId,
          prompt := messages.getLastD "",
          response := some result.response,
          creditsUsed := some result.creditsUsed, model := some "gpt-4o" }
      match memUpdateUserCredits st uid (user.credits - result.creditsUsed) now with
      | .error _ =>
        (st, 500, [.updateUserCredits uid (user.credits - result.creditsUsed)])
      | .ok r1 =>
        let st2 := (memCreateAiGeneration r1.1 gen now).1
        (st2, 200,
         [.updateUserCredits uid (user.credits - result.creditsUsed),
          .createAiGeneration gen])

/-- `POST /api/auth/register` (`server/supabaseAuth.ts`): 400 when email or
password is falsy; 400 "User already exists" when `getUserByEmail` finds a
user, with no store write; otherwise create the user with the bcrypt hash
(passed in as `hashed`) and 1000 credits. Returns the store, the status code
and the response message. -/
def registerRoute (st : MemStore) (email pw : Option String)
    (firstName lastName : Option String) (hashed : String) (now : Nat) :
    MemStore × Nat × String :=
  if email.getD "" = "" ∨ pw.getD "" = "" then
    (st, 400, "Email and password required")
  else
    match memGetUserByEmail st (email.getD "") with
    | some _ => (st, 400, "User already exists")
    | none =>
      let r := memCreateUser st
        { email := email, firstName := firstName, lastName := lastName,
          hashedPassword := some hashed, credits := some 1000 } now
      (r.1, 200, "")

/-! ### Sequences of exposed project operations -/

/-- One invocation of an exposed project route, with the request data and the
outcome of the external git work. For clone and pull, `ws` is the workspace
file list the re-import walk saw and `gitOk` whether the git work completed. -/
inductive ProjOp where
  | createOp (uid : Nat) (body : InsertProject) (now : Nat)
  | updateOp (pid uid : Nat) (patch : ProjectPatch) (now : Nat)
  | connectOp (pid uid : Nat) (repoUrl : Option String) (branch : Option String) (now : Nat)
  | cloneOp (pid uid : Nat) (ws : Workspace) (gitOk : Bool) (now : Nat)
  | pushOp (pid uid : Nat) (gitOk : Bool) (now : Nat)
  | pullOp (pid uid : Nat) (ws : Workspace) (gitOk : Bool) (now : Nat)
  | disconnectOp (pid uid : Nat) (now : Nat)

/-- The store after running one exposed project route. -/
def applyProjOp (st : MemStore) : ProjOp → MemStore
  | .createOp uid body now => (createProjectRoute st uid body now).1
  | .updateOp pid uid patch now => (updateProjectRoute st pid uid patch now).1
  | .connectOp pid uid repoUrl branch now =>
      (githubConnectRoute st pid uid repoUrl branch now).1
  | .cloneOp pid uid ws gitOk now => (githubCloneRoute st pid uid ws gitOk now).1
  | .pushOp pid uid gitOk now => (githubPushRoute st pid uid gitOk now).1
  | .pullOp pid uid ws gitOk now => (githubPullRoute st pid uid ws gitOk now).1
  | .disconnectOp pid uid now => (githubDisconnectRoute st pid uid now).1

/-- A generic create/update payload that leaves the git fields alone: the
body or patch does not set `gitStatus`, and a patch does not null
`githubRepoUrl`. The dedicated GitHub routes are unrestricted. -/
def safeOp : ProjOp → Bool
  | .createOp _ body _ => body.gitStatus == none
  | .updateOp _ _ patch _ =>
      patch.gitStatus == none && !(patch.githubRepoUrl == some none)
  | _ => true

/-- The spec's Project invariant: `gitStatus` is `"connected"` only if
`githubRepoUrl` is non-null. -/
def GitInvariant (st : MemStore) : Prop :=
  ∀ p ∈ st.projects, p.gitStatus = "connected" → p.githubRepoUrl ≠ none

/-! ### Key-based views of the file table -/

/-- All rows of a file list with the given `(projectId, path)` natural key,
in table order. -/
def rowsIn (l : List ProjectFile) (pid : Nat) (p : String) : List ProjectFile :=
  l.filter (filePred pid p)

/-- The rows of the volatile store with the given natural key. -/
def rowsFor (st : MemStore) (pid : Nat) (p : String) : List ProjectFile :=
  rowsIn st.projectFiles pid p

/-- The rows of the durable store with the given natural key. -/
def dbRowsFor (db : DbStore) (pid : Nat) (p : String) : List ProjectFile :=
  rowsIn db.projectFiles pid p

/-- The file table has at most one row per `(projectId, path)` key — the
shape every store reached through the storage interface has (the volatile
backend keys its map by `` `${projectId}:${path}` ``, the durable one has the
composite natural key). -/
def KeysNodup (l : List ProjectFile) : Prop :=
  l.Pairwise fun a b => a.projectId ≠ b.projectId ∨ a.path ≠ b.path

/-- One upsert call of a C1 call sequence: the caller-supplied `content` and
`language` and the wall-clock time of the call. -/
structure UpsertCall where
  content : Option String
  language : Option String
  now : Nat
deriving Repr, DecidableEq

/-- Run one `MemStorage.createOrUpdateProjectFile` call against a fixed
`(projectId, path)` key. -/
def memUpsertStep (pid : Nat) (p : String) (st : MemStore) (c : UpsertCall) : MemStore :=
  (memCreateOrUpdateProjectFile st
    { projectId := pid, path := p, content := c.content, language := c.language } c.now).1

/-- Run one `DatabaseStorage.createOrUpdateProjectFile` call against a fixed
`(projectId, path)` key, threading the fresh-id supply. -/
def dbUpsertStep (pid : Nat) (p : String) (s : DbStore × Nat) (c : UpsertCall) :
    DbStore × Nat :=
  ((dbCreateOrUpdateProjectFile s.1
    { projectId := pid, path := p, content := c.content, language := c.language }
    s.2 c.now).1, s.2 + 1)

/-! ### Generic list lemmas -/

/-- A list with empty filter has no `find?` hit. -/
lemma find?_of_filter_nil {α : Type} {q : α → Bool} {l : List α}
    (h : l.filter q = []) : l.find? q = none := by
  rw [List.find?_eq_none]
  intro x hx
  simpa using List.filter_eq_nil_iff.mp h x hx

/-- A list whose filter is a singleton `find?`s exactly that element. -/
lemma find?_of_filter_singleton {α : Type} {q : α → Bool} {l : List α} {x : α}
    (h : l.filter q = [x]) : l.find? q = some x := by
  induction l with
  | nil => simp at h
  | cons a t ih =>
    by_cases ha : q a
    · rw [List.filter_cons_of_pos ha] at h
      obtain ⟨rfl, -⟩ := List.cons_eq_cons.mp h
      simp [List.find?_cons_of_pos, ha]
    · rw [List.filter_cons_of_neg ha] at h
      rw [List.find?_cons_of_neg _ ha]
      exact ih h

/-- Mapping a function that fixes every filtered-in element and never moves an
element across the filter boundary commutes with the filter. -/
lemma filter_map_congr {α : Type} {q : α → Bool} {φ : α → α} {l : List α}
    (h : ∀ a ∈ l, q (φ a) = q a ∧ (q a = true → φ a = a)) :
    (l.map φ).filter q = l.filter q := by
  induction l with
  | nil => rfl
  | cons a t ih =>
    have ha := h a (List.mem_cons_self a t)
    have ht : ∀ b ∈ t, q (φ b) = q b ∧ (q b = true → φ b = b) :=
      fun b hb => h b (List.mem_cons_of_mem a hb)
    by_cases hqa : q a
    · rw [List.map_cons, List.filter_cons_of_pos (ha.1.trans (by simp [hqa])),
        List.filter_cons_of_pos hqa, ha.2 hqa, ih ht]
    · rw [List.map_cons, List.filter_cons_of_neg, List.filter_cons_of_neg
        (by simp [hqa]), ih ht]
      rw [ha.1]
      simp [hqa]

/-- Mapping a function that fixes every filtered-out element over a list with
singleton filter `[x]` gives filter `[φ x]`, provided `φ x` stays in. -/
lemma filter_map_found {α : Type} {q : α → Bool} {φ : α → α} {l : List α}
    {x : α} (h : l.filter q = [x]) (hx : q (φ x) = true)
    (hφf : ∀ a, q a = false → φ a = a) :
    (l.map φ).filter q = [φ x] := by
  induction l with
  | nil => simp at h
  | cons a t ih =>
    by_cases hqa : q a
    · rw [List.filter_cons_of_pos hqa] at h
      obtain ⟨rfl, hrest⟩ := List.cons_eq_cons.mp h
      rw [List.map_cons, List.filter_cons_of_pos hx]
      have : (t.map φ).filter q = [] := by
        rw [filter_map_congr]
        · exact hrest
        · intro b hb
          have hqb : q b = false := by
            by_contra hb'
            have : b ∈ t.filter q := List.mem_filter.mpr
              ⟨hb, by simpa using hb'⟩
            simp [hrest] at this
          exact ⟨by rw [hφf b hqb, hqb], by intro hh; rw [hh] at hqb; cases hqb⟩
      rw [this]
    · rw [List.filter_cons_of_neg hqa] at h
      rw [List.map_cons, hφf a (by simpa using hqa), List.filter_cons_of_neg hqa]
      exact ih h

/-- A left fold of a function that ignores its accumulator returns the image
of the last element. -/
lemma foldl_const_getLastD {α β : Type} (F : α → β) (t : List α) (c : α) (x : β) :
    (c :: t).foldl (fun _ d => F d) x = F (t.getLastD c) := by
  induction t generalizing c x with
  | nil => rfl
  | cons d t' ih =>
    rw [List.foldl_cons, ih d (F c)]
    congr 1
    rw [List.getLastD_cons]

/-! ### Behaviour of one upsert call -/

/-- `filePred` in propositional form. -/
lemma filePred_iff {pid : Nat} {p : String} {f : ProjectFile} :
    filePred pid p f = true ↔ f.projectId = pid ∧ f.path = p := by
  simp [filePred]

/-- The file upsert leaves the project table untouched. -/
lemma memUpsert_projects_eq (st : MemStore) (fd : InsertProjectFile) (t : Nat) :
    (memCreateOrUpdateProjectFile st fd t).1.projects = st.projects := by
  unfold memCreateOrUpdateProjectFile
  cases memGetProjectFile st fd.projectId fd.path <;> rfl

/-- Upserting one key does not change the rows of any other key (volatile
backend). -/
lemma rowsFor_memUpsert_ne (st : MemStore) (fd : InsertProjectFile) (t : Nat)
    (pid : Nat) (p : String) (hne : ¬(fd.projectId = pid ∧ fd.path = p)) :
    rowsFor (memCreateOrUpdateProjectFile st fd t).1 pid p = rowsFor st pid p := by
  unfold memCreateOrUpdateProjectFile
  cases hf : memGetProjectFile st fd.projectId fd.path with
  | some g =>
    simp only [rowsFor, rowsIn]
    apply filter_map_congr
    intro a _
    by_cases hk : filePred fd.projectId fd.path a = true
    · have ha : a.projectId = fd.projectId ∧ a.path = fd.path := filePred_iff.mp hk
      have hqa : filePred pid p a = false := by
        simp only [filePred, decide_eq_false_iff_not]
        rintro ⟨h1, h2⟩
        exact hne ⟨ha.1.symm.trans h1, ha.2.symm.trans h2⟩
      refine ⟨?_, fun hcontr => by rw [hqa] at hcontr; cases hcontr⟩
      rw [if_pos hk, hqa]
      simp only [filePred, decide_eq_false_iff_not]
      rintro ⟨h1, h2⟩
      exact hne ⟨h1, h2⟩
    · rw [if_neg hk]
      exact ⟨rfl, fun _ => rfl⟩
  | none =>
    simp only [rowsFor, rowsIn, List.filter_append]
    have : filePred pid p
        { id := st.nextId, projectId := fd.projectId, path := fd.path,
          content := fd.content.getD "", language := fd.language.getD "javascript",
          createdAt := t, updatedAt := t } = false := by
      simp only [filePred, decide_eq_false_iff_not]
      exact hne
    simp [this]

/-- Upserting a key that has exactly one row updates that row in place,
keeping `id` and `createdAt` and writing `content`, `language`, `updatedAt`. -/
lemma rowsFor_memUpsert_found (st : MemStore) (fd : InsertProjectFile) (t : Nat)
    (g : ProjectFile) (h : rowsFor st fd.projectId fd.path = [g]) :
    rowsFor (memCreateOrUpdateProjectFile st fd t).1 fd.projectId fd.path =
      [{ id := g.id, projectId := fd.projectId, path := fd.path,
         content := fd.content.getD "", language := fd.language.getD "javascript",
         createdAt := g.createdAt, updatedAt := t }] := by
  have hfind : memGetProjectFile st fd.projectId fd.path = some g :=
    find?_of_filter_singleton h
  have hg : filePred fd.projectId fd.path g = true := by
    have : g ∈ rowsFor st fd.projectId fd.path := by
      rw [h]; exact List.mem_cons_self _ _
    exact (List.mem_filter.mp this).2
  unfold memCreateOrUpdateProjectFile
  rw [hfind]
  simp only [rowsFor, rowsIn]
  rw [filter_map_found h (by rw [if_pos hg]; simp [filePred])
    (fun a ha => by rw [if_neg (by simp [ha])])]
  rw [if_pos hg]

/-- Upserting a key with no row appends a fresh row carrying the counter id
and `createdAt = updatedAt = now`. -/
lemma rowsFor_memUpsert_new (st : MemStore) (fd : InsertProjectFile) (t : Nat)
    (h : rowsFor st fd.projectId fd.path = []) :
    rowsFor (memCreateOrUpdateProjectFile st fd t).1 fd.projectId fd.path =
      [{ id := st.nextId, projectId := fd.projectId, path := fd.path,
         content := fd.content.getD "", language := fd.language.getD "javascript",
         createdAt := t, updatedAt := t }] := by
  have hfind : memGetProjectFile st fd.projectId fd.path = none :=
    find?_of_filter_nil h
  unfold memCreateOrUpdateProjectFile
  rw [hfind]
  simp only [rowsFor, rowsIn, List.filter_append] at h ⊢
  rw [h]
  simp [filePred]

/-- Upserting one key does not change the rows of any other key (durable
backend). -/
lemma dbRowsFor_dbUpsert_ne (db : DbStore) (fd : InsertProjectFile)
    (fid t : Nat) (pid : Nat) (p : String)
    (hne : ¬(fd.projectId = pid ∧ fd.path = p)) :
    dbRowsFor (dbCreateOrUpdateProjectFile db fd fid t).1 pid p =
      dbRowsFor db pid p := by
  unfold dbCreateOrUpdateProjectFile
  cases hf : dbGetProjectFile db fd.projectId fd.path with
  | some g =>
    simp only [dbRowsFor, rowsIn]
    apply filter_map_congr
    intro a _
    by_cases hk : filePred fd.projectId fd.path a = true
    · have ha : a.projectId = fd.projectId ∧ a.path = fd.path := filePred_iff.mp hk
      have hqa : filePred pid p a = false := by
        simp only [filePred, decide_eq_false_iff_not]
        rintro ⟨h1, h2⟩
        exact hne ⟨ha.1.symm.trans h1, ha.2.symm.trans h2⟩
      refine ⟨?_, fun hcontr => by rw [hqa] at hcontr; cases hcontr⟩
      rw [if_pos hk, hqa]
      simp only [filePred, decide_eq_false_iff_not]
      rintro ⟨h1, h2⟩
      exact hne ⟨ha.1.symm.trans (ha.1 ▸ h1), ha.2.symm.trans (ha.2 ▸ h2)⟩
    · rw [if_neg hk]
      exact ⟨rfl, fun _ => rfl⟩
  | none =>
    simp only [dbRowsFor, rowsIn, List.filter_append]
    have : filePred pid p
        { id := fid, projectId := fd.projectId, path := fd.path,
          content := fd.content.getD "", language := fd.language.getD "javascript",
          createdAt := t, updatedAt := t } = false := by
      simp only [filePred, decide_eq_false_iff_not]
      exact hne
    simp [this]

/-- The durable upsert on a single-row key updates it in place, keeping `id`
and `createdAt` (an `undefined` content or language keeps the stored value). -/
lemma dbRowsFor_dbUpsert_found (db : DbStore) (fd : InsertProjectFile)
    (fid t : Nat) (g : ProjectFile) (h : dbRowsFor db fd.projectId fd.path = [g]) :
    dbRowsFor (dbCreateOrUpdateProjectFile db fd fid t).1 fd.projectId fd.path =
      [{ g with content := fd.content.getD g.content,
                language := fd.language.getD g.language, updatedAt := t }] := by
  have hfind : dbGetProjectFile db fd.projectId fd.path = some g := by
    unfold dbGetProjectFile
    have : db.projectFiles.filter (filePred fd.projectId fd.path) = [g] := h
    rw [this]
    rfl
  have hg : filePred fd.projectId fd.path g = true := by
    have : g ∈ dbRowsFor db fd.projectId fd.path := by
      rw [h]; exact List.mem_cons_self _ _
    exact (List.mem_filter.mp this).2
  unfold dbCreateOrUpdateProjectFile
  rw [hfind]
  simp only [dbRowsFor, rowsIn]
  rw [filter_map_found h (by rw [if_pos hg]; simpa [filePred] using filePred_iff.mp hg)
    (fun a ha => by rw [if_neg (by simp [ha])])]
  rw [if_pos hg]

/-- The durable upsert on an absent key appends a fresh row with the supplied
id, the schema defaults, and `createdAt = updatedAt = now`. -/
lemma dbRowsFor_dbUpsert_new (db : DbStore) (fd : InsertProjectFile)
    (fid t : Nat) (h : dbRowsFor db fd.projectId fd.path = []) :
    dbRowsFor (dbCreateOrUpdateProjectFile db fd fid t).1 fd.projectId fd.path =
      [{ id := fid, projectId := fd.projectId, path := fd.path,
         content := fd.content.getD "", language := fd.language.getD "javascript",
         createdAt := t, updatedAt := t }] := by
  have hfind : dbGetProjectFile db fd.projectId fd.path = none := by
    unfold dbGetProjectFile
    have : db.projectFiles.filter (filePred fd.projectId fd.path) = [] := h
    rw [this]
    rfl
  unfold dbCreateOrUpdateProjectFile
  rw [hfind]
  simp only [dbRowsFor, rowsIn, List.filter_append] at h ⊢
  rw [h]
  simp [filePred]

/-! ### Folding a sequence of upsert calls over one key -/

/-- What one upsert call does to the existing row for its key: `id`,
`createdAt` and the key are kept, `content`/`language` are overwritten (with
the storage defaults) and `updatedAt` is touched. -/
def overwriteRow (g : ProjectFile) (c : UpsertCall) : ProjectFile :=
  { id := g.id, projectId := g.projectId, path := g.path,
    content := c.content.getD "", language := c.language.getD "javascript",
    createdAt := g.createdAt, updatedAt := c.now }

/-- Consecutive overwrites collapse to the last one. -/
lemma foldl_overwriteRow_cons (t : List UpsertCall) (g : ProjectFile) (c : UpsertCall) :
    (c :: t).foldl overwriteRow g = overwriteRow g (t.getLastD c) := by
  induction t generalizing g c with
  | nil => rfl
  | cons d t' ih =>
    rw [List.foldl_cons, ih (overwriteRow g c) d, List.getLastD_cons]
    rfl

/-- A run of upsert calls on a key whose row list is the singleton `[g]`
leaves exactly the overwritten row (volatile backend). -/
lemma rowsFor_memFold (pid : Nat) (p : String) (cs : List UpsertCall) :
    ∀ st g, rowsFor st pid p = [g] →
    rowsFor (cs.foldl (memUpsertStep pid p) st) pid p = [cs.foldl overwriteRow g] := by
  induction cs with
  | nil => intro st g hg; simpa using hg
  | cons c t ih =>
    intro st g hg
    have hgkey : g.projectId = pid ∧ g.path = p := by
      have : g ∈ rowsFor st pid p := by rw [hg]; exact List.mem_cons_self _ _
      exact filePred_iff.mp (List.mem_filter.mp this).2
    have step := rowsFor_memUpsert_found st
      { projectId := pid, path := p, content := c.content, language := c.language }
      c.now g hg
    have hrow : ({ id := g.id, projectId := pid, path := p,
                   content := c.content.getD "",
                   language := c.language.getD "javascript",
                   createdAt := g.createdAt, updatedAt := c.now } : ProjectFile)
        = overwriteRow g c := by
      simp [overwriteRow, hgkey.1, hgkey.2]
    rw [List.foldl_cons]
    exact (ih _ (overwriteRow g c) (by rw [← hrow]; exact step)).trans rfl

/-- A run of upsert calls on one key never touches another key (volatile
backend). -/
lemma rowsFor_memFold_ne (pid : Nat) (p : String) (cs : List UpsertCall)
    (pid' : Nat) (p' : String) (hne : ¬(pid = pid' ∧ p = p')) :
    ∀ st, rowsFor (cs.foldl (memUpsertStep pid p) st) pid' p' = rowsFor st pid' p' := by
  induction cs with
  | nil => intro st; rfl
  | cons c t ih =>
    intro st
    rw [List.foldl_cons]
    exact (ih _).trans (rowsFor_memUpsert_ne st
      { projectId := pid, path := p, content := c.content, language := c.language }
      c.now pid' p' hne)

/-- Durable-backend version of `rowsFor_memFold`, for calls that supply both
`content` and `language` (every call site in the repository does). -/
lemma dbRowsFor_dbFold (pid : Nat) (p : String) (cs : List UpsertCall)
    (hsome : ∀ c ∈ cs, c.content.isSome ∧ c.language.isSome) :
    ∀ (s : DbStore × Nat) g, dbRowsFor s.1 pid p = [g] →
    dbRowsFor (cs.foldl (dbUpsertStep pid p) s).1 pid p = [cs.foldl overwriteRow g] := by
  induction cs with
  | nil => intro s g hg; simpa using hg
  | cons c t ih =>
    intro s g hg
    have hc := hsome c (List.mem_cons_self c t)
    have hgkey : g.projectId = pid ∧ g.path = p := by
      have : g ∈ dbRowsFor s.1 pid p := by rw [hg]; exact List.mem_cons_self _ _
      exact filePred_iff.mp (List.mem_filter.mp this).2
    have step := dbRowsFor_dbUpsert_found s.1
      { projectId := pid, path := p, content := c.content, language := c.language }
      s.2 c.now g hg
    have hrow : ({ g with content := c.content.getD g.content,
                          language := c.language.getD g.language,
                          updatedAt := c.now } : ProjectFile)
        = overwriteRow g c := by
      obtain ⟨v, hv⟩ := Option.isSome_iff_exists.mp hc.1
      obtain ⟨w, hw⟩ := Option.isSome_iff_exists.mp hc.2
      simp [overwriteRow, hv, hw]
    rw [List.foldl_cons]
    exact ih (fun d hd => hsome d (List.mem_cons_of_mem c hd)) _
      (overwriteRow g c) (by rw [← hrow]; exact step)

/-! ### Claim C1 -/

/-- C1: for every sequence of `createOrUpdateProjectFile` calls with the same
`(projectId, path)`, the store ends with exactly one row for that key, the
row's `id` and `createdAt` equal those assigned on the first call, each later
call overwrites only `content` and `language` and touches `updatedAt`, and no
other key is affected. Proved for the volatile backend (first two conjuncts)
and, for call sequences that supply `content` and `language` as every call
site in the repository does, for the durable backend (third conjunct). -/
theorem createOrUpdateProjectFile_identity_stability
    (st0 : MemStore) (db0 : DbStore) (n0 pid : Nat) (p : String)
    (c0 : UpsertCall) (rest : List UpsertCall)
    (hmem : rowsFor st0 pid p = []) (hdb : dbRowsFor db0 pid p = []) :
    rowsFor ((c0 :: rest).foldl (memUpsertStep pid p) st0) pid p =
      [{ id := st0.nextId, projectId := pid, path := p,
         content := (rest.getLastD c0).content.getD "",
         language := (rest.getLastD c0).language.getD "javascript",
         createdAt := c0.now, updatedAt := (rest.getLastD c0).now }] ∧
    (∀ pid' p', ¬(pid = pid' ∧ p = p') →
      rowsFor ((c0 :: rest).foldl (memUpsertStep pid p) st0) pid' p' =
        rowsFor st0 pid' p') ∧
    ((∀ c ∈ c0 :: rest, c.content.isSome ∧ c.language.isSome) →
      dbRowsFor ((c0 :: rest).foldl (dbUpsertStep pid p) (db0, n0)).1 pid p =
        [{ id := n0, projectId := pid, path := p,
           content := (rest.getLastD c0).content.getD "",
           language := (rest.getLastD c0).language.getD "javascript",
           createdAt := c0.now, updatedAt := (rest.getLastD c0).now }]) := by
  refine ⟨?_, ?_, ?_⟩
  · have h1 : rowsFor (memUpsertStep pid p st0 c0) pid p =
        [{ id := st0.nextId, projectId := pid, path := p,
           content := c0.content.getD "", language := c0.language.getD "javascript",
           createdAt := c0.now, updatedAt := c0.now }] :=
      rowsFor_memUpsert_new st0
        { projectId := pid, path := p, content := c0.content, language := c0.language }
        c0.now hmem
    rw [List.foldl_cons, rowsFor_memFold pid p rest _ _ h1]
    cases rest with
    | nil => rfl
    | cons c t => rw [foldl_overwriteRow_cons, List.getLastD_cons]; rfl
  · intro pid' p' hne
    rw [List.foldl_cons]
    exact (rowsFor_memFold_ne pid p rest pid' p' hne _).trans
      (rowsFor_memUpsert_ne st0
        { projectId := pid, path := p, content := c0.content, language := c0.language }
        c0.now pid' p' hne)
  · intro hsome
    have h1 : dbRowsFor (dbUpsertStep pid p (db0, n0) c0).1 pid p =
        [{ id := n0, projectId := pid, path := p,
           content := c0.content.getD "", language := c0.language.getD "javascript",
           createdAt := c0.now, updatedAt := c0.now }] :=
      dbRowsFor_dbUpsert_new db0
        { projectId := pid, path := p, content := c0.content, language := c0.language }
        n0 c0.now hdb
    rw [List.foldl_cons, dbRowsFor_dbFold pid p rest
      (fun c hc => hsome c (List.mem_cons_of_mem c0 hc)) _ _ h1]
    cases rest with
    | nil => rfl
    | cons c t => rw [foldl_overwriteRow_cons, List.getLastD_cons]; rfl

/-- Witness for C1: two calls on the key `(1, "a.txt")` against the empty
stores leave exactly one row, with the first call's id `0` and `createdAt`,
and the second call's content and `updatedAt`. -/
theorem createOrUpdateProjectFile_identity_stability_witness :
    (rowsFor emptyMemStore 1 "a.txt" = [] ∧ dbRowsFor emptyDbStore 1 "a.txt" = []) ∧
    rowsFor (([⟨some "x", some "text", 3⟩, ⟨some "y", none, 7⟩] :
        List UpsertCall).foldl (memUpsertStep 1 "a.txt") emptyMemStore) 1 "a.txt" =
      [{ id := 0, projectId := 1, path := "a.txt", content := "y",
         language := "javascript", createdAt := 3, updatedAt := 7 }] :=
  ⟨⟨by decide, by decide⟩,
   (createOrUpdateProjectFile_identity_stability emptyMemStore emptyDbStore 0 1 "a.txt"
     ⟨some "x", some "text", 3⟩ [⟨some "y", none, 7⟩] (by decide) (by decide)).1⟩

/-! ### Claims C8 and C9 -/

/-- `lexLe` is transitive. -/
lemma lexLe_trans : ∀ as bs cs, lexLe as bs = true → lexLe bs cs = true →
    lexLe as cs = true := by
  intro as
  induction as with
  | nil => intro bs cs _ _; rfl
  | cons a as ih =>
    intro bs cs h1 h2
    cases bs with
    | nil => simp [lexLe] at h1
    | cons b bs =>
      cases cs with
      | nil => simp [lexLe] at h2
      | cons c cs =>
        simp only [lexLe] at h1 h2 ⊢
        by_cases hab : a.toNat < b.toNat
        · by_cases hbc : b.toNat < c.toNat
          · rw [if_pos (show a.toNat < c.toNat by omega)]
          · by_cases hcb : c.toNat < b.toNat
            · rw [if_neg hbc, if_pos hcb] at h2; cases h2
            · rw [if_pos (show a.toNat < c.toNat by omega)]
        · by_cases hba : b.toNat < a.toNat
          · rw [if_neg hab, if_pos hba] at h1; cases h1
          · by_cases hbc : b.toNat < c.toNat
            · rw [if_pos (show a.toNat < c.toNat by omega)]
            · by_cases hcb : c.toNat < b.toNat
              · rw [if_neg hbc, if_pos hcb] at h2; cases h2
              · rw [if_neg hab, if_neg hba] at h1
                rw [if_neg hbc, if_neg hcb] at h2
                rw [if_neg (show ¬a.toNat < c.toNat by omega),
                  if_neg (show ¬c.toNat < a.toNat by omega)]
                exact ih bs cs h1 h2

/-- `lexLe` is total. -/
lemma lexLe_total : ∀ as bs, lexLe as bs = true ∨ lexLe bs as = true := by
  intro as
  induction as with
  | nil => intro bs; exact Or.inl rfl
  | cons a as ih =>
    intro bs
    cases bs with
    | nil => exact Or.inr rfl
    | cons b bs =>
      simp only [lexLe]
      by_cases hab : a.toNat < b.toNat
      · exact Or.inl (by rw [if_pos hab])
      · by_cases hba : b.toNat < a.toNat
        · exact Or.inr (by rw [if_pos hba])
        · rcases ih bs with h | h
          · exact Or.inl (by rw [if_neg hab, if_neg hba]; exact h)
          · exact Or.inr (by rw [if_neg hba, if_neg hab]; exact h)

/-- C8: `getProjectFiles(projectId)` returns, in both backends, exactly the
project's file rows (a permutation of the unsorted selection, hence
independent of insertion order) sorted ascending by path. -/
theorem getProjectFiles_sorted_by_path (st : MemStore) (db : DbStore) (pid : Nat) :
    List.Pairwise (fun a b : ProjectFile => strLe a.path b.path = true)
      (memGetProjectFiles st pid) ∧
    (memGetProjectFiles st pid).Perm
      (st.projectFiles.filter fun f => f.projectId == pid) ∧
    List.Pairwise (fun a b : ProjectFile => strLe a.path b.path = true)
      (dbGetProjectFiles db pid) ∧
    (dbGetProjectFiles db pid).Perm
      (db.projectFiles.filter fun f => f.projectId == pid) := by
  refine ⟨?_, List.mergeSort_perm _ _, ?_, List.mergeSort_perm _ _⟩ <;>
    exact @List.sorted_mergeSort ProjectFile (fun a b => strLe a.path b.path)
      (fun a b c h1 h2 => lexLe_trans _ _ _ h1 h2)
      (fun a b => by
        rcases lexLe_total a.path.data b.path.data with h | h <;> simp [strLe, h])
      _

/-- C9: `deleteProject(id)` removes every `ProjectFile` row whose `projectId`
matches — a subsequent `getProjectFiles(id)` is empty — and the surviving file
table is exactly the rows of the other projects, unchanged and in order; the
reads of any other project are untouched. Both backends (the durable one via
the schema's cascading foreign key, modelled from the spec). -/
theorem deleteProject_cascades_to_files (st : MemStore) (db : DbStore) (pid : Nat) :
    memGetProjectFiles (memDeleteProject st pid) pid = [] ∧
    (memDeleteProject st pid).projectFiles =
      (st.projectFiles.filter fun f => !(f.projectId == pid)) ∧
    (∀ pid', pid' ≠ pid →
      memGetProjectFiles (memDeleteProject st pid) pid' = memGetProjectFiles st pid') ∧
    dbGetProjectFiles (dbDeleteProject db pid) pid = [] ∧
    (dbDeleteProject db pid).projectFiles =
      (db.projectFiles.filter fun f => !(f.projectId == pid)) := by
  have hmem : ((st.projectFiles.filter fun f => !(f.projectId == pid)).filter
      fun f => f.projectId == pid) = [] := by
    rw [List.filter_eq_nil_iff]
    intro a ha
    have := (List.mem_filter.mp ha).2
    simpa using this
  have hdb : ((db.projectFiles.filter fun f => !(f.projectId == pid)).filter
      fun f => f.projectId == pid) = [] := by
    rw [List.filter_eq_nil_iff]
    intro a ha
    have := (List.mem_filter.mp ha).2
    simpa using this
  refine ⟨?_, rfl, ?_, ?_, rfl⟩
  · simp [memGetProjectFiles, memDeleteProject, hmem]
  · intro pid' hne
    have : ((st.projectFiles.filter fun f => !(f.projectId == pid)).filter
        fun f => f.projectId == pid') =
        st.projectFiles.filter fun f => f.projectId == pid' := by
      rw [List.filter_filter]
      apply List.filter_congr
      intro a _
      by_cases h : a.projectId = pid'
      · simp [h, hne]
      · simp [h]
    simp [memGetProjectFiles, memDeleteProject, this]
  · simp [dbGetProjectFiles, dbDeleteProject, hdb]

/-! ### Claim C3 -/

/-- C3 counterexample: on an absent user id the durable backend's
`updateUserCredits` completes normally — the drizzle `update ... returning()`
matches no row, `const [user] = []` leaves `user` undefined, nothing is
thrown — returning the unchanged store and no user. The claim's "fails with a
NotFound condition ... in both the durable and the volatile backend" is false
for the durable backend: it is exactly a silent no-op there. -/
theorem updateUserCredits_db_absent_is_silent_noop :
    dbUpdateUserCredits emptyDbStore 7 42 3 = (emptyDbStore, none) := by decide

/-- C3 amended: on an absent id the volatile backend throws
`"User not found"`, while the durable backend performs no write and returns an
absent row without surfacing a failure; on a present id both replace `credits`
and touch `updatedAt`. -/
theorem updateUserCredits_amended :
    (∀ st uid c now, memGetUser st uid = none →
      memUpdateUserCredits st uid c now = .error "User not found") ∧
    (∀ st uid c now u, memGetUser st uid = some u →
      memUpdateUserCredits st uid c now =
        .ok (setUserInMaps st { u with credits := c, updatedAt := now },
             { u with credits := c, updatedAt := now })) ∧
    (∀ db uid c now, (∀ u ∈ db.users, u.id ≠ uid) →
      dbUpdateUserCredits db uid c now = (db, none)) ∧
    (∀ db uid c now u, db.users.filter (fun v => v.id == uid) = [u] →
      (dbUpdateUserCredits db uid c now).2 =
        some { u with credits := c, updatedAt := now } ∧
      (dbUpdateUserCredits db uid c now).1.users =
        db.users.map fun v =>
          if v.id == uid then { v with credits := c, updatedAt := now } else v) := by
  refine ⟨?_, ?_, ?_, ?_⟩
  · intro st uid c now h
    unfold memUpdateUserCredits
    rw [h]
  · intro st uid c now u h
    unfold memUpdateUserCredits
    rw [h]
  · intro db uid c now h
    unfold dbUpdateUserCredits
    have h1 : db.users.filter (fun u => u.id == uid) = [] :=
      List.filter_eq_nil_iff.mpr fun a ha => by simp [h a ha]
    have h2 : (db.users.map fun u =>
        if u.id == uid then { u with credits := c, updatedAt := now } else u) =
        db.users := by
      have := List.map_congr_left (l := db.users)
        (f := fun u => if u.id == uid then { u with credits := c, updatedAt := now } else u)
        (g := id) fun a ha => by simp [h a ha]
      simpa using this
    simp only [h1, h2, List.map_nil, List.head?_nil]
  · intro db uid c now u h
    unfold dbUpdateUserCredits
    rw [h]
    exact ⟨rfl, rfl⟩

/-- A concrete user used by several witnesses. -/
def userEx : User :=
  { id := 0, email := some "a@x", firstName := none, lastName := none,
    profileImageUrl := none, hashedPassword := none, credits := 100,
    stripeCustomerId := none, stripeSubscriptionId := none,
    subscriptionStatus := "free", githubAccessToken := none,
    githubUsername := none, createdAt := 0, updatedAt := 0 }

/-- A volatile store holding `userEx`. -/
def memStEx : MemStore :=
  { emptyMemStore with users := [userEx], usersByEmail := [("a@x", userEx)],
                       nextId := 1 }

/-- A durable store holding `userEx`. -/
def dbStEx : DbStore := { emptyDbStore with users := [userEx] }

/-- Witness for C3: the amended theorem applied at concrete stores — the
volatile backend errors on the absent id 5, replaces credits for the present
id 0; the durable backend no-ops on the absent id and returns the updated row
for the present one. -/
theorem updateUserCredits_amended_witness :
    (memGetUser memStEx 5 = none ∧
     memUpdateUserCredits memStEx 5 7 1 = .error "User not found") ∧
    (memGetUser memStEx 0 = some userEx ∧
     memUpdateUserCredits memStEx 0 7 1 =
       .ok (setUserInMaps memStEx { userEx with credits := 7, updatedAt := 1 },
            { userEx with credits := 7, updatedAt := 1 })) ∧
    ((∀ u ∈ dbStEx.users, u.id ≠ 5) ∧
     dbUpdateUserCredits dbStEx 5 7 1 = (dbStEx, none)) ∧
    (dbStEx.users.filter (fun v => v.id == 0) = [userEx] ∧
     (dbUpdateUserCredits dbStEx 0 7 1).2 =
       some { userEx with credits := 7, updatedAt := 1 }) :=
  ⟨⟨by decide, updateUserCredits_amended.1 memStEx 5 7 1 (by decide)⟩,
   ⟨by decide, updateUserCredits_amended.2.1 memStEx 0 7 1 userEx (by decide)⟩,
   ⟨by decide, updateUserCredits_amended.2.2.1 dbStEx 5 7 1 (by decide)⟩,
   ⟨by decide, (updateUserCredits_amended.2.2.2 dbStEx 0 7 1 userEx (by decide)).1⟩⟩

/-! ### Claim C6 -/

/-- C6: an AI request by a user whose credits are below the action's cost
(10 for `/api/ai/generate`, 5 for `/api/ai/chat`) is rejected with 400 before
any store write: the store is returned unchanged and the write trace is
empty. -/
theorem ai_routes_reject_insufficient_credits (st : MemStore) (uid : Nat)
    (u : User) (hu : memGetUser st uid = some u) :
    (∀ prompt projectId result now, u.credits < 10 →
      aiGenerateRoute st uid prompt projectId result now = (st, 400, [])) ∧
    (∀ messages projectId result now, u.credits < 5 →
      aiChatRoute st uid messages projectId result now = (st, 400, [])) := by
  constructor
  · intro prompt projectId result now hc
    unfold aiGenerateRoute
    rw [hu]
    simp [hc]
  · intro messages projectId result now hc
    unfold aiChatRoute
    rw [hu]
    simp [hc]

/-- A user with 3 credits, and a store holding them. -/
def userPoorEx : User := { userEx with credits := 3 }

/-- A volatile store holding only `userPoorEx`. -/
def memStPoorEx : MemStore :=
  { emptyMemStore with users := [userPoorEx], usersByEmail := [("a@x", userPoorEx)],
                       nextId := 1 }

/-- Witness for C6: with 3 credits both AI routes return 400 with no store
write and an unchanged store. -/
theorem ai_routes_reject_insufficient_credits_witness :
    (memGetUser memStPoorEx 0 = some userPoorEx ∧
     userPoorEx.credits < 10 ∧ userPoorEx.credits < 5) ∧
    aiGenerateRoute memStPoorEx 0 "make an app" none ⟨"", "done", 10⟩ 4 =
      (memStPoorEx, 400, []) ∧
    aiChatRoute memStPoorEx 0 ["hello"] none ⟨"hi", 5⟩ 4 =
      (memStPoorEx, 400, []) :=
  ⟨⟨by decide, by decide, by decide⟩,
   (ai_routes_reject_insufficient_credits memStPoorEx 0 userPoorEx (by decide)).1
     "make an app" none ⟨"", "done", 10⟩ 4 (by decide),
   (ai_routes_reject_insufficient_credits memStPoorEx 0 userPoorEx (by decide)).2
     ["hello"] none ⟨"hi", 5⟩ 4 (by decide)⟩

/-! ### Claim C10 -/

/-- Mapping a function that fixes the elements failing `q` moves `find?` to
the image of the old hit, provided the image still satisfies `q`. -/
lemma find?_map_of_find? {α : Type} {q : α → Bool} {φ : α → α} {l : List α}
    {x : α} (hfind : l.find? q = some x) (hq : q (φ x) = true)
    (hφf : ∀ a, q a = false → φ a = a) :
    (l.map φ).find? q = some (φ x) := by
  induction l with
  | nil => cases hfind
  | cons a t ih =>
    by_cases hqa : q a
    · rw [List.find?_cons_of_pos _ hqa] at hfind
      obtain rfl := Option.some.inj hfind
      rw [List.map_cons, List.find?_cons_of_pos _ hq]
    · rw [List.find?_cons_of_neg _ hqa] at hfind
      rw [List.map_cons, hφf a (by simpa using hqa), List.find?_cons_of_neg _ hqa]
      exact ih hfind

/-- C10: in the volatile backend `createUser` with an email already present
succeeds unconditionally — no Conflict error exists at store level — inserting
a second user under a fresh id; afterwards `getUserByEmail` answers with the
new user while the old one is still reachable by `getUser(id)`. The
duplicate-email rejection lives only in the `/api/auth/register` route, which
returns 400 "User already exists" and leaves the store untouched. -/
theorem memCreateUser_duplicate_email (st : MemStore) (e : String) (u : User)
    (d : InsertUser) (now : Nat)
    (hbyEmail : memGetUserByEmail st e = some u)
    (hbyId : memGetUser st u.id = some u)
    (hfresh : ∀ v ∈ st.users, v.id < st.nextId)
    (hde : d.email = some e) (he : e ≠ "")
    (pw : Option String) (hpw : pw.getD "" ≠ "")
    (fn ln : Option String) (hash : String) :
    (memCreateUser st d now).2.id = st.nextId ∧
    u.id ≠ (memCreateUser st d now).2.id ∧
    (memCreateUser st d now).1.users = st.users ++ [(memCreateUser st d now).2] ∧
    memGetUserByEmail (memCreateUser st d now).1 e = some (memCreateUser st d now).2 ∧
    memGetUser (memCreateUser st d now).1 u.id = some u ∧
    registerRoute st (some e) pw fn ln hash now = (st, 400, "User already exists") := by
  have humem : u ∈ st.users := by
    have := List.mem_of_find?_eq_some hbyId
    exact this
  have huid : u.id < st.nextId := hfresh u humem
  have hany : (st.users.any fun v =>
      v.id == (memCreateUser st d now).2.id) = false := by
    rw [List.any_eq_false]
    intro v hv
    have : v.id < st.nextId := hfresh v hv
    simp only [memCreateUser]
    simpa using Nat.ne_of_lt this
  have husers : (memCreateUser st d now).1.users = st.users ++ [(memCreateUser st d now).2] := by
    simp only [memCreateUser, setUserInMaps, hde]
    rw [usersSet]
    rw [if_neg]
    simp only [memCreateUser] at hany
    simpa using hany
  refine ⟨rfl, Nat.ne_of_lt huid, husers, ?_, ?_, ?_⟩
  · -- the usersByEmail map now answers with the new user
    unfold memGetUserByEmail at hbyEmail
    obtain ⟨qe, hfq, hqe2⟩ := Option.map_eq_some'.mp hbyEmail
    have hqkey : qe.1 = e := by
      have := List.find?_some hfq
      simpa using this
    have hanyE : (st.usersByEmail.any fun q => decide (q.1 = e)) = true :=
      List.any_eq_true.mpr ⟨qe, List.mem_of_find?_eq_some hfq,
        by simpa using hqkey⟩
    simp only [memCreateUser, setUserInMaps, hde, memGetUserByEmail]
    rw [emailMapSet, if_pos (by simpa using hanyE)]
    rw [find?_map_of_find? hfq (by simp [hqkey]) (fun a ha => by
      rw [if_neg (by simpa using ha)])]
    simp [hqkey, memCreateUser]
  · -- the old user is still reachable by id
    unfold memGetUser
    rw [show (memCreateUser st d now).1.users =
      st.users ++ [(memCreateUser st d now).2] from husers]
    rw [List.find?_append]
    unfold memGetUser at hbyId
    rw [hbyId]
    rfl
  · unfold registerRoute
    rw [if_neg (by simp [he, hpw])]
    simp only [Option.getD_some]
    rw [hbyEmail]

/-- Witness for C10: creating a second user with the already-present email
`"a@x"` against `memStEx` yields id 1 (fresh), shadows the email lookup,
keeps `userEx` reachable by id 0, and the register route rejects the same
email with 400 and no store change. -/
theorem memCreateUser_duplicate_email_witness :
    (memGetUserByEmail memStEx "a@x" = some userEx ∧
     memGetUser memStEx 0 = some userEx) ∧
    (memCreateUser memStEx { email := some "a@x" } 2).2.id = 1 ∧
    memGetUserByEmail (memCreateUser memStEx { email := some "a@x" } 2).1 "a@x" =
      some (memCreateUser memStEx { email := some "a@x" } 2).2 ∧
    memGetUser (memCreateUser memStEx { email := some "a@x" } 2).1 0 = some userEx ∧
    registerRoute memStEx (some "a@x") (some "pw") none none "h" 2 =
      (memStEx, 400, "User already exists") :=
  ⟨⟨by decide, by decide⟩,
   (memCreateUser_duplicate_email memStEx "a@x" userEx { email := some "a@x" } 2
     (by decide) (by decide) (by decide) (by decide) (by decide)
     (some "pw") (by decide) none none "h").1,
   (memCreateUser_duplicate_email memStEx "a@x" userEx { email := some "a@x" } 2
     (by decide) (by decide) (by decide) (by decide) (by decide)
     (some "pw") (by decide) none none "h").2.2.2.1,
   (memCreateUser_duplicate_email memStEx "a@x" userEx { email := some "a@x" } 2
     (by decide) (by decide) (by decide) (by decide) (by decide)
     (some "pw") (by decide) none none "h").2.2.2.2.1,
   (memCreateUser_duplicate_email memStEx "a@x" userEx { email := some "a@x" } 2
     (by decide) (by decide) (by decide) (by decide) (by decide)
     (some "pw") (by decide) none none "h").2.2.2.2.2⟩

/-! ### Claim C5 -/

/-- `syncStep` never touches the project table. -/
lemma syncStep_projects_eq (pid now : Nat) (acc : MemStore × List ProjectFile)
    (e : String × String) : (syncStep pid now acc e).1.projects = acc.1.projects := by
  unfold syncStep
  by_cases h : skippedPath e.1
  · rw [if_pos h]
  · rw [if_neg h]
    exact memUpsert_projects_eq _ _ _

/-- The dematerialize walk never touches the project table. -/
lemma syncWorkspaceToProject_projects_eq (st : MemStore) (pid : Nat)
    (ws : Workspace) (now : Nat) :
    (syncWorkspaceToProject st pid ws now).1.projects = st.projects := by
  unfold syncWorkspaceToProject
  have h : ∀ acc : MemStore × List ProjectFile,
      (ws.foldl (syncStep pid now) acc).1.projects = acc.1.projects := by
    induction ws with
    | nil => intro acc; rfl
    | cons e t ih =>
      intro acc
      rw [List.foldl_cons, ih (syncStep pid now acc e), syncStep_projects_eq]
  exact h (st, [])

/-- `updateProject` on a present id returns the patched row and replaces it in
the table. -/
lemma memUpdateProject_found (st : MemStore) (pid : Nat) (u : ProjectPatch)
    (now : Nat) (p : Project) (h : memGetProject st pid = some p) :
    memUpdateProject st pid u now =
      .ok ({ st with projects := st.projects.map fun q =>
               if q.id == pid then applyProjectPatch p u now else q },
           applyProjectPatch p u now) := by
  unfold memUpdateProject
  rw [h]

/-- Replacing the found project row (by a row with the same id) moves
`getProject` to the replacement. -/
lemma memGetProject_after_replace (st : MemStore) (pid : Nat) (p x : Project)
    (h : memGetProject st pid = some p) (hx : x.id = p.id) :
    memGetProject { st with projects := st.projects.map fun q =>
      if q.id == pid then x else q } pid = some x := by
  unfold memGetProject at h ⊢
  have hpq : (p.id == pid) = true := by simpa using List.find?_some h
  have := find?_map_of_find? (φ := fun q => if q.id == pid then x else q) h
    (by simp [hpq, hx]) (fun a ha => by simp [ha])
  rw [this]
  simp [hpq]

/-- Packaged form of the two `updateProject` lemmas: a present id yields an
`ok` result whose store has the patched row and untouched file/user tables. -/
lemma memUpdateProject_ok (st : MemStore) (pid : Nat) (u : ProjectPatch)
    (now : Nat) (p : Project) (h : memGetProject st pid = some p) :
    ∃ st', memUpdateProject st pid u now = .ok (st', applyProjectPatch p u now) ∧
      memGetProject st' pid = some (applyProjectPatch p u now) ∧
      st'.projectFiles = st.projectFiles ∧ st'.users = st.users :=
  ⟨_, memUpdateProject_found st pid u now p h,
   memGetProject_after_replace st pid p _ h rfl, rfl, rfl⟩

/-- C5: when a clone, push or pull fails after the operation has started (the
request passed the existence/ownership/token/URL checks and entered the git
work), the handler emits `setGitStatus "error"` strictly before the 500
failure response, and the project's stored `gitStatus` is `"error"` when the
response goes out. -/
theorem git_failure_sets_error_before_response (st : MemStore) (pid uid : Nat)
    (ws : Workspace) (now : Nat) (project : Project) (user : User)
    (hproj : memGetProject st pid = some project)
    (howner : project.userId = uid)
    (huser : memGetUser st uid = some user)
    (htok : ¬user.githubAccessToken.getD "" = "")
    (hrepo : ¬project.githubRepoUrl.getD "" = "") :
    ((githubCloneRoute st pid uid ws false now).2 =
       [.setGitStatus pid "syncing", .setGitStatus pid "error", .respond 500] ∧
     (memGetProject (githubCloneRoute st pid uid ws false now).1 pid).map
       (fun p => p.gitStatus) = some "error") ∧
    ((githubPushRoute st pid uid false now).2 =
       [.setGitStatus pid "syncing", .setGitStatus pid "error", .respond 500] ∧
     (memGetProject (githubPushRoute st pid uid false now).1 pid).map
       (fun p => p.gitStatus) = some "error") ∧
    ((githubPullRoute st pid uid ws false now).2 =
       [.setGitStatus pid "syncing", .setGitStatus pid "error", .respond 500] ∧
     (memGetProject (githubPullRoute st pid uid ws false now).1 pid).map
       (fun p => p.gitStatus) = some "error") := by
  obtain ⟨st1, hok1, hget1, -, -⟩ :=
    memUpdateProject_ok st pid { gitStatus := some "syncing" } now project hproj
  have hget2 : memGetProject (syncWorkspaceToProject st1 pid ws now).1 pid =
      some (applyProjectPatch project { gitStatus := some "syncing" } now) := by
    unfold memGetProject
    rw [syncWorkspaceToProject_projects_eq]
    exact hget1
  obtain ⟨st2c, hok2c, hget2c, -, -⟩ :=
    memUpdateProject_ok _ pid { gitStatus := some "error" } now _ hget2
  obtain ⟨st2p, hok2p, hget2p, -, -⟩ :=
    memUpdateProject_ok st1 pid { gitStatus := some "error" } now _ hget1
  refine ⟨⟨?_, ?_⟩, ⟨?_, ?_⟩, ⟨?_, ?_⟩⟩
  · unfold githubCloneRoute
    simp only [hproj, huser]
    rw [if_neg (by simp [howner]), if_neg htok, if_neg hrepo]
    simp only [hok1, hok2c]
    rw [if_neg (by simp)]
  · unfold githubCloneRoute
    simp only [hproj, huser]
    rw [if_neg (by simp [howner]), if_neg htok, if_neg hrepo]
    simp only [hok1]
    rw [if_neg (by simp)]
    simp only [hok2c, hget2c]
    rfl
  · unfold githubPushRoute
    simp only [hproj, huser]
    rw [if_neg (by simp [howner]), if_neg htok, if_neg hrepo]
    simp only [hok1]
    rw [if_neg (by simp)]
    simp only [hok2p]
  · unfold githubPushRoute
    simp only [hproj, huser]
    rw [if_neg (by simp [howner]), if_neg htok, if_neg hrepo]
    simp only [hok1]
    rw [if_neg (by simp)]
    simp only [hok2p, hget2p]
    rfl
  · unfold githubPullRoute
    simp only [hproj, huser]
    rw [if_neg (by simp [howner]), if_neg htok, if_neg hrepo]
    simp only [hok1]
    rw [if_neg (by simp)]
    simp only [hok2c]
  · unfold githubPullRoute
    simp only [hproj, huser]
    rw [if_neg (by simp [howner]), if_neg htok, if_neg hrepo]
    simp only [hok1]
    rw [if_neg (by simp)]
    simp only [hok2c, hget2c]
    rfl

/-- A connected project owned by user 0. -/
def projEx : Project :=
  { id := 1, userId := 0, name := "p", description := none, template := "react",
    status := "draft", deployUrl := none, isPublic := false,
    githubRepoUrl := some "https://github.com/u/r", githubBranch := "main",
    githubAccessToken := none, lastSyncAt := none, gitStatus := "connected",
    createdAt := 0, updatedAt := 0 }

/-- `userEx` with a GitHub token. -/
def userGitEx : User := { userEx with githubAccessToken := some "tok" }

/-- Store with a GitHub-connected project and its owner. -/
def memStGitEx : MemStore :=
  { emptyMemStore with users := [userGitEx], usersByEmail := [("a@x", userGitEx)],
                       projects := [projEx], nextId := 2 }

/-- Witness for C5: a failing clone against the concrete connected store emits
`syncing`, then `error`, then the 500 response, and leaves the stored
`gitStatus` at `"error"`. -/
theorem git_failure_sets_error_before_response_witness :
    (memGetProject memStGitEx 1 = some projEx ∧ projEx.userId = 0 ∧
     memGetUser memStGitEx 0 = some userGitEx ∧
     ¬userGitEx.githubAccessToken.getD "" = "" ∧
     ¬projEx.githubRepoUrl.getD "" = "") ∧
    (githubCloneRoute memStGitEx 1 0 [] false 9).2 =
      [.setGitStatus 1 "syncing", .setGitStatus 1 "error", .respond 500] ∧
    (memGetProject (githubCloneRoute memStGitEx 1 0 [] false 9).1 1).map
      (fun p => p.gitStatus) = some "error" :=
  ⟨⟨by decide, by decide, by decide, by decide, by decide⟩,
   (git_failure_sets_error_before_response memStGitEx 1 0 [] 9 projEx userGitEx
     (by decide) (by decide) (by decide) (by decide) (by decide)).1.1,
   (git_failure_sets_error_before_response memStGitEx 1 0 [] 9 projEx userGitEx
     (by decide) (by decide) (by decide) (by decide) (by decide)).1.2⟩

/-! ### Claim C7 -/

/-- `syncStep` for one entry does not change the rows of any other key. -/
lemma rowsFor_syncStep_ne (pid now : Nat) (acc : MemStore × List ProjectFile)
    (e : String × String) (pid' : Nat) (p' : String)
    (h : ¬(pid = pid' ∧ e.1 = p')) :
    rowsFor (syncStep pid now acc e).1 pid' p' = rowsFor acc.1 pid' p' := by
  unfold syncStep
  by_cases hs : skippedPath e.1
  · rw [if_pos hs]
  · rw [if_neg hs]
    exact rowsFor_memUpsert_ne acc.1
      { projectId := pid, path := e.1, content := some e.2,
        language := some (getLanguageFromExtension (extname e.1)) } now pid' p' h

/-- A walk whose every entry misses the key `(pid', p')` leaves that key's
rows alone. -/
lemma rowsFor_syncFold_ne (pid now : Nat) (ws : Workspace) (pid' : Nat)
    (p' : String) (h : ∀ x ∈ ws, ¬(pid = pid' ∧ x.1 = p')) :
    ∀ acc, rowsFor (ws.foldl (syncStep pid now) acc).1 pid' p' =
      rowsFor acc.1 pid' p' := by
  induction ws with
  | nil => intro acc; rfl
  | cons e t ih =>
    intro acc
    rw [List.foldl_cons, ih fun x hx => h x (List.mem_cons_of_mem e hx)]
    exact rowsFor_syncStep_ne pid now acc e pid' p' (h e (List.mem_cons_self e t))

/-- The walk never writes to a skipped path: an entry that is upserted is by
definition not skipped, so its path differs from any skipped one. -/
lemma rowsFor_syncFold_skipped (pid now : Nat) (ws : Workspace) (pid' : Nat)
    (p' : String) (hs : skippedPath p' = true) :
    ∀ acc, rowsFor (ws.foldl (syncStep pid now) acc).1 pid' p' =
      rowsFor acc.1 pid' p' := by
  induction ws with
  | nil => intro acc; rfl
  | cons e t ih =>
    intro acc
    rw [List.foldl_cons, ih]
    by_cases hse : skippedPath e.1
    · unfold syncStep
      rw [if_pos hse]
    · exact rowsFor_syncStep_ne pid now acc e pid' p'
        (by rintro ⟨-, rfl⟩; rw [hs] at hse; exact hse rfl)

/-- In a key-unique table, the rows of any key are `[]` or a singleton. -/
lemma rowsIn_nodup_cases (l : List ProjectFile) (h : KeysNodup l) (pid : Nat)
    (p : String) : rowsIn l pid p = [] ∨ ∃ g, rowsIn l pid p = [g] := by
  induction l with
  | nil => exact Or.inl rfl
  | cons a t ih =>
    obtain ⟨ha, ht⟩ := List.pairwise_cons.mp h
    by_cases hpa : filePred pid p a = true
    · right
      refine ⟨a, ?_⟩
      have hkey := filePred_iff.mp hpa
      have hrest : rowsIn t pid p = [] := by
        apply List.filter_eq_nil_iff.mpr
        intro b hb
        rcases ha b hb with hne | hne
        · simp only [filePred, decide_eq_true_eq]
          rintro ⟨h1, -⟩
          exact hne (hkey.1.trans h1.symm)
        · simp only [filePred, decide_eq_true_eq]
          rintro ⟨-, h2⟩
          exact hne (hkey.2.trans h2.symm)
      unfold rowsIn at hrest ⊢
      rw [List.filter_cons_of_pos hpa, hrest]
    · unfold rowsIn at ih ⊢
      rw [List.filter_cons_of_neg (by simpa using hpa)]
      exact ih ht

/-- In a key-unique table, a member's key selects exactly that row. -/
lemma rowsIn_nodup_of_mem (l : List ProjectFile) (h : KeysNodup l)
    (f : ProjectFile) (hf : f ∈ l) : rowsIn l f.projectId f.path = [f] := by
  induction l with
  | nil => cases hf
  | cons a t ih =>
    obtain ⟨ha, ht⟩ := List.pairwise_cons.mp h
    rcases List.mem_cons.mp hf with rfl | hf'
    · have hrest : rowsIn t f.projectId f.path = [] := by
        apply List.filter_eq_nil_iff.mpr
        intro b hb
        rcases ha b hb with hne | hne
        · simp only [filePred, decide_eq_true_eq]
          rintro ⟨h1, -⟩
          exact hne h1.symm
        · simp only [filePred, decide_eq_true_eq]
          rintro ⟨-, h2⟩
          exact hne h2.symm
      unfold rowsIn at hrest ⊢
      rw [List.filter_cons_of_pos (by simp [filePred]), hrest]
    · have hna : filePred f.projectId f.path a = false := by
        rcases ha f hf' with hne | hne
        · simp only [filePred, decide_eq_false_iff_not]
          rintro ⟨h1, -⟩
          exact hne h1
        · simp only [filePred, decide_eq_false_iff_not]
          rintro ⟨-, h2⟩
          exact hne h2
      unfold rowsIn at ih ⊢
      rw [List.filter_cons_of_neg (by simpa using hna)]
      exact ih ht hf'

/-- The effect of the walk on a non-skipped entry `e` of the workspace, with
pairwise-distinct workspace paths: the key `(pid, e.1)` ends with exactly the
row read from disk — updated in place when a row existed, freshly inserted
otherwise. -/
lemma rowsFor_sync_nonskip (st : MemStore) (pid now : Nat)
    (l₁ l₂ : List (String × String)) (e : String × String)
    (hnd : (l₁ ++ e :: l₂).Pairwise fun a b => a.1 ≠ b.1)
    (hskip : skippedPath e.1 = false) :
    (∀ g, rowsFor st pid e.1 = [g] →
      rowsFor (syncWorkspaceToProject st pid (l₁ ++ e :: l₂) now).1 pid e.1 =
        [{ id := g.id, projectId := pid, path := e.1, content := e.2,
           language := getLanguageFromExtension (extname e.1),
           createdAt := g.createdAt, updatedAt := now }]) ∧
    (rowsFor st pid e.1 = [] →
      ∃ n, rowsFor (syncWorkspaceToProject st pid (l₁ ++ e :: l₂) now).1 pid e.1 =
        [{ id := n, projectId := pid, path := e.1, content := e.2,
           language := getLanguageFromExtension (extname e.1),
           createdAt := now, updatedAt := now }]) := by
  obtain ⟨hp1, hp2, hp3⟩ := List.pairwise_append.mp hnd
  have hl₁ : ∀ x ∈ l₁, ¬(pid = pid ∧ x.1 = e.1) := by
    rintro x hx ⟨-, hxe⟩
    exact hp3 x hx e (List.mem_cons_self e l₂) hxe
  have hl₂ : ∀ y ∈ l₂, ¬(pid = pid ∧ y.1 = e.1) := by
    rintro y hy ⟨-, hye⟩
    exact (List.pairwise_cons.mp hp2).1 y hy hye.symm
  have hsplit : (syncWorkspaceToProject st pid (l₁ ++ e :: l₂) now).1 =
      (l₂.foldl (syncStep pid now)
        (syncStep pid now (l₁.foldl (syncStep pid now) (st, [])) e)).1 := by
    unfold syncWorkspaceToProject
    rw [List.foldl_append, List.foldl_cons]
  have hA : rowsFor (l₁.foldl (syncStep pid now) (st, [])).1 pid e.1 =
      rowsFor st pid e.1 := rowsFor_syncFold_ne pid now l₁ pid e.1 hl₁ (st, [])
  have hstep : (syncStep pid now (l₁.foldl (syncStep pid now) (st, [])) e).1 =
      (memCreateOrUpdateProjectFile (l₁.foldl (syncStep pid now) (st, [])).1
        { projectId := pid, path := e.1, content := some e.2,
          language := some (getLanguageFromExtension (extname e.1)) } now).1 := by
    unfold syncStep
    rw [if_neg (by simp [hskip])]
  constructor
  · intro g hg
    rw [hsplit, rowsFor_syncFold_ne pid now l₂ pid e.1 hl₂ _, hstep]
    have := rowsFor_memUpsert_found (l₁.foldl (syncStep pid now) (st, [])).1
      { projectId := pid, path := e.1, content := some e.2,
        language := some (getLanguageFromExtension (extname e.1)) } now g
      (hA.trans hg)
    simpa using this
  · intro hempty
    refine ⟨(l₁.foldl (syncStep pid now) (st, [])).1.nextId, ?_⟩
    rw [hsplit, rowsFor_syncFold_ne pid now l₂ pid e.1 hl₂ _, hstep]
    have := rowsFor_memUpsert_new (l₁.foldl (syncStep pid now) (st, [])).1
      { projectId := pid, path := e.1, content := some e.2,
        language := some (getLanguageFromExtension (extname e.1)) } now
      (hA.trans hempty)
    simpa using this

/-- C7 counterexample: the dematerialize walk skips only paths that start
with `.git` or contain `node_modules`. A `.git` directory below the root
(`sub/.git/config`) and a build-output directory (`dist/bundle.js`) are not
matched and are imported into the store — the claim says every entry under a
version-control metadata or build-output directory is skipped regardless of
depth. -/
theorem sync_imports_nested_git_and_build_output :
    skippedPath "sub/.git/config" = false ∧
    skippedPath "dist/bundle.js" = false ∧
    memGetProjectFile (syncWorkspaceToProject emptyMemStore 1
      [("sub/.git/config", "c"), ("dist/bundle.js", "d")] 5).1 1 "sub/.git/config"
      ≠ none ∧
    memGetProjectFile (syncWorkspaceToProject emptyMemStore 1
      [("sub/.git/config", "c"), ("dist/bundle.js", "d")] 5).1 1 "dist/bundle.js"
      ≠ none := by decide

/-- C7 amended: during the dematerialize walk exactly the entries whose
relative path starts with `.git` (at the top level only) or contains
`node_modules` anywhere are skipped — such keys are left untouched — and
every other entry, including files under a nested `.git` or under
build-output directories, is imported: its key ends with exactly one row
carrying the on-disk content, the extension-inferred language tag and the
sync time. -/
theorem syncWorkspaceToProject_skip_behavior (st : MemStore) (pid now : Nat)
    (ws : Workspace) (hnd : ws.Pairwise fun a b => a.1 ≠ b.1)
    (hkeys : KeysNodup st.projectFiles) :
    (∀ p', skippedPath p' = true →
      rowsFor (syncWorkspaceToProject st pid ws now).1 pid p' =
        rowsFor st pid p') ∧
    (∀ e ∈ ws, skippedPath e.1 = false →
      ∃ r, rowsFor (syncWorkspaceToProject st pid ws now).1 pid e.1 = [r] ∧
        r.projectId = pid ∧ r.path = e.1 ∧ r.content = e.2 ∧
        r.language = getLanguageFromExtension (extname e.1) ∧
        r.updatedAt = now) := by
  constructor
  · intro p' hp'
    exact rowsFor_syncFold_skipped pid now ws pid p' hp' (st, [])
  · intro e he hskip
    obtain ⟨l₁, l₂, rfl⟩ := List.append_of_mem he
    have hmain := rowsFor_sync_nonskip st pid now l₁ l₂ e hnd hskip
    rcases rowsIn_nodup_cases st.projectFiles hkeys pid e.1 with hempty | ⟨g, hg⟩
    · obtain ⟨n, hn⟩ := hmain.2 hempty
      exact ⟨_, hn, rfl, rfl, rfl, rfl, rfl⟩
    · exact ⟨_, hmain.1 g hg, rfl, rfl, rfl, rfl, rfl⟩

/-- Witness for C7 (amended): on a concrete walk over `[".gitignore",
"a/node_modules/x.js"]` both skipped keys are untouched in the empty store. -/
theorem syncWorkspaceToProject_skip_behavior_witness :
    (([(".gitignore", "g"), ("a/node_modules/x.js", "m")] :
        Workspace).Pairwise (fun a b => a.1 ≠ b.1) ∧
     KeysNodup emptyMemStore.projectFiles ∧
     skippedPath ".gitignore" = true ∧
     skippedPath "a/node_modules/x.js" = true) ∧
    rowsFor (syncWorkspaceToProject emptyMemStore 1
      [(".gitignore", "g"), ("a/node_modules/x.js", "m")] 5).1 1 ".gitignore" =
      rowsFor emptyMemStore 1 ".gitignore" :=
  ⟨⟨by simp, List.Pairwise.nil, by decide, by decide⟩,
   (syncWorkspaceToProject_skip_behavior emptyMemStore 1 5
     [(".gitignore", "g"), ("a/node_modules/x.js", "m")]
     (by simp) List.Pairwise.nil).1 ".gitignore" (by decide)⟩

/-! ### Claim C2 -/

/-- The materialized workspace has pairwise-distinct paths and contains the
`(path, content)` pair of every file of the project. -/
lemma syncProjectToWorkspace_paths (st : MemStore) (pid : Nat)
    (hkeys : KeysNodup st.projectFiles) :
    (syncProjectToWorkspace st pid).Pairwise (fun a b => a.1 ≠ b.1) ∧
    ∀ f ∈ st.projectFiles, f.projectId = pid →
      (f.path, f.content) ∈ syncProjectToWorkspace st pid := by
  have hperm : (memGetProjectFiles st pid).Perm
      (st.projectFiles.filter fun f => f.projectId == pid) :=
    List.mergeSort_perm _ _
  have hfiltkeys : KeysNodup (st.projectFiles.filter fun f => f.projectId == pid) :=
    List.Pairwise.sublist (List.filter_sublist _) hkeys
  have hfiltpath : (st.projectFiles.filter fun f => f.projectId == pid).Pairwise
      (fun a b => a.path ≠ b.path) := by
    apply List.Pairwise.imp_of_mem ?_ hfiltkeys
    intro a b ha hb hk
    rcases hk with hne | hne
    · have hpa : a.projectId = pid := by simpa using (List.mem_filter.mp ha).2
      have hpb : b.projectId = pid := by simpa using (List.mem_filter.mp hb).2
      exact absurd (hpa.trans hpb.symm) hne
    · exact hne
  have hsorted_path : (memGetProjectFiles st pid).Pairwise
      (fun a b => a.path ≠ b.path) :=
    (List.Perm.pairwise_iff (fun h => Ne.symm h) hperm).mpr hfiltpath
  constructor
  · unfold syncProjectToWorkspace
    rw [List.pairwise_map]
    exact hsorted_path
  · intro f hf hpidf
    unfold syncProjectToWorkspace
    apply List.mem_map_of_mem
    rw [hperm.mem_iff]
    exact List.mem_filter.mpr ⟨hf, by simpa using hpidf⟩

/-- C2 amended: `materialize` immediately followed by `dematerialize` on the
unmodified workspace preserves every file's bytes and identity but not its
language tag: each non-skipped file of the project ends as its original row
with only `updatedAt` advanced and `language` replaced by the tag inferred
from its extension (so the tag is unchanged exactly when it already equals
that inference); a file whose path the walk skips (top-level `.git` prefix or
`node_modules` segment) is byte-identical and wholly untouched; files of
other projects are untouched. -/
theorem materialize_dematerialize_roundtrip (st : MemStore) (pid now : Nat)
    (hkeys : KeysNodup st.projectFiles) :
    (∀ f ∈ st.projectFiles, f.projectId = pid → skippedPath f.path = false →
      rowsFor (syncWorkspaceToProject st pid (syncProjectToWorkspace st pid) now).1
          pid f.path =
        [{ f with language := getLanguageFromExtension (extname f.path),
                  updatedAt := now }]) ∧
    (∀ f ∈ st.projectFiles, f.projectId = pid → skippedPath f.path = true →
      rowsFor (syncWorkspaceToProject st pid (syncProjectToWorkspace st pid) now).1
          pid f.path = [f]) ∧
    (∀ f ∈ st.projectFiles, f.projectId ≠ pid →
      rowsFor (syncWorkspaceToProject st pid (syncProjectToWorkspace st pid) now).1
          f.projectId f.path = rowsFor st f.projectId f.path) := by
  obtain ⟨hwsnd, hwsmem⟩ := syncProjectToWorkspace_paths st pid hkeys
  refine ⟨?_, ?_, ?_⟩
  · intro f hf hfpid hskip
    have hmem := hwsmem f hf hfpid
    obtain ⟨l₁, l₂, hsplit⟩ := List.append_of_mem hmem
    have hrows : rowsFor st pid f.path = [f] := by
      rw [← hfpid]
      exact rowsIn_nodup_of_mem st.projectFiles hkeys f hf
    have hrow : ({ f with language := getLanguageFromExtension (extname f.path),
                          updatedAt := now } : ProjectFile) =
        { id := f.id, projectId := pid, path := f.path, content := f.content,
          language := getLanguageFromExtension (extname f.path),
          createdAt := f.createdAt, updatedAt := now } := by
      rw [← hfpid]
    rw [hrow, hsplit]
    exact (rowsFor_sync_nonskip st pid now l₁ l₂ (f.path, f.content)
      (hsplit ▸ hwsnd) hskip).1 f hrows
  · intro f hf hfpid hskip
    have hrows : rowsFor st pid f.path = [f] := by
      rw [← hfpid]
      exact rowsIn_nodup_of_mem st.projectFiles hkeys f hf
    rw [← hrows]
    exact rowsFor_syncFold_skipped pid now _ pid f.path hskip (st, [])
  · intro f hf hfne
    exact rowsFor_syncFold_ne pid now _ f.projectId f.path
      (fun x _ => by rintro ⟨h1, -⟩; exact hfne h1.symm) (st, [])

/-- A store holding one file whose language tag does not match its
extension (reachable through `PUT /api/projects/:id/files`, whose payload
carries an arbitrary language). -/
def memStC2Ex : MemStore :=
  { emptyMemStore with
    projectFiles := [{ id := 0, projectId := 1, path := "main.py", content := "x",
                       language := "javascript", createdAt := 0, updatedAt := 0 }],
    nextId := 1 }

/-- C2 counterexample: the round trip is not byte-for-byte on language tags —
dematerialize re-infers the language from the extension, so the stored
`"javascript"` tag on `main.py` comes back `"python"`. Content is preserved. -/
theorem roundtrip_replaces_language_tag :
    (memGetProjectFile (syncWorkspaceToProject memStC2Ex 1
        (syncProjectToWorkspace memStC2Ex 1) 5).1 1 "main.py").map
      (fun f => f.language) = some "python" ∧
    (memGetProjectFile memStC2Ex 1 "main.py").map (fun f => f.language) =
      some "javascript" ∧
    (memGetProjectFile (syncWorkspaceToProject memStC2Ex 1
        (syncProjectToWorkspace memStC2Ex 1) 5).1 1 "main.py").map
      (fun f => f.content) = some "x" := by
  have hws : syncProjectToWorkspace memStC2Ex 1 = [("main.py", "x")] := by
    simp [syncProjectToWorkspace, memGetProjectFiles, memStC2Ex, List.mergeSort]
  rw [hws]
  decide

/-- Witness for C2 (amended): the concrete store `memStC2Ex` satisfies the
key-uniqueness hypothesis and its single non-skipped file `main.py` round
trips to the same row with the inferred `"python"` tag and `updatedAt = 5`. -/
theorem materialize_dematerialize_roundtrip_witness :
    (KeysNodup memStC2Ex.projectFiles ∧ skippedPath "main.py" = false) ∧
    rowsFor (syncWorkspaceToProject memStC2Ex 1
        (syncProjectToWorkspace memStC2Ex 1) 5).1 1 "main.py" =
      [{ id := 0, projectId := 1, path := "main.py", content := "x",
         language := getLanguageFromExtension (extname "main.py"),
         createdAt := 0, updatedAt := 5 }] :=
  ⟨⟨by simp [memStC2Ex, KeysNodup], by decide⟩,
   (materialize_dematerialize_roundtrip memStC2Ex 1 5 (by simp [memStC2Ex, KeysNodup])).1
     { id := 0, projectId := 1, path := "main.py", content := "x",
       language := "javascript", createdAt := 0, updatedAt := 0 }
     (by decide) (by decide) (by decide)⟩

/-! ### Claim C4 -/

/-- The invariant is decidable, so concrete stores can be checked. -/
instance (st : MemStore) : Decidable (GitInvariant st) :=
  List.decidableBAll _ st.projects

/-- C4 counterexample: the invariant is violated by a reachable state. A
project created with a default body, then patched through
`PUT /api/projects/:id` with `{ gitStatus: "connected" }` — the zod partial
schema passes the field through — is `"connected"` with a null
`githubRepoUrl`. -/
theorem gitStatus_invariant_violated_by_update :
    ¬ GitInvariant (applyProjOp (applyProjOp emptyMemStore
      (.createOp 0 { userId := 0, name := "p" } 0))
      (.updateOp 0 0 { gitStatus := some "connected" } 1)) := by decide

/-- A patched-in constant row preserves the invariant when it satisfies it. -/
lemma GitInvariant_updateProject (st : MemStore) (pid : Nat) (u : ProjectPatch)
    (now : Nat) (st' : MemStore) (p' : Project) (hInv : GitInvariant st)
    (hok : memUpdateProject st pid u now = .ok (st', p'))
    (hp' : p'.gitStatus = "connected" → p'.githubRepoUrl ≠ none) :
    GitInvariant st' := by
  unfold memUpdateProject at hok
  cases hfind : memGetProject st pid with
  | none => rw [hfind] at hok; cases hok
  | some p =>
    rw [hfind] at hok
    injection hok with h
    obtain ⟨h1, h2⟩ := Prod.mk.inj h
    intro q hq hconn
    rw [← h1] at hq
    obtain ⟨a, ha, hqa⟩ := List.mem_map.mp hq
    by_cases hid : (a.id == pid) = true
    · rw [if_pos hid] at hqa
      rw [← hqa] at hconn ⊢
      rw [h2] at hconn ⊢
      exact hp' hconn
    · rw [if_neg hid] at hqa
      rw [← hqa] at hconn ⊢
      exact hInv a ha hconn

/-- The invariant only depends on the project table. -/
lemma GitInvariant_of_projects_eq (st st' : MemStore)
    (h : st'.projects = st.projects) (hInv : GitInvariant st) :
    GitInvariant st' := by
  intro p hp
  rw [h] at hp
  exact hInv p hp

/-- Seeding the initial template files leaves the project table alone. -/
lemma seedFiles_projects_eq (l : List (String × String × String))
    (pidn now : Nat) :
    ∀ acc : MemStore,
      (l.foldl (fun acc f => (memCreateOrUpdateProjectFile acc
        { projectId := pidn, path := f.1, content := some f.2.1,
          language := some f.2.2 } now).1) acc).projects = acc.projects := by
  induction l with
  | nil => intro acc; rfl
  | cons f t ih =>
    intro acc
    rw [List.foldl_cons, ih, memUpsert_projects_eq]

/-- `POST /api/projects` preserves the invariant when the payload leaves
`gitStatus` unset: the new project starts `"unconnected"`. -/
lemma GitInvariant_createProjectRoute (st : MemStore) (uid : Nat)
    (body : InsertProject) (now : Nat) (hInv : GitInvariant st)
    (hbody : body.gitStatus = none) :
    GitInvariant (createProjectRoute st uid body now).1 := by
  unfold createProjectRoute
  dsimp only
  apply GitInvariant_of_projects_eq { st with
    projects := st.projects ++ [(memCreateProject st
      (insertProjectSchemaParse { body with userId := uid }) now).2] }
  · rw [seedFiles_projects_eq]
    rfl
  · intro p hp hconn
    rcases List.mem_append.mp hp with hold | hnew
    · exact hInv p hold hconn
    · exfalso
      have hpnew := List.mem_singleton.mp hnew
      rw [hpnew] at hconn
      simp only [memCreateProject, insertProjectSchemaParse, hbody,
        Option.getD_none] at hconn
      exact absurd hconn (by decide)

/-- `PUT /api/projects/:id` preserves the invariant when the patch leaves
`gitStatus` unset and does not null `githubRepoUrl`. -/
lemma GitInvariant_updateProjectRoute (st : MemStore) (pid uid : Nat)
    (patch : ProjectPatch) (now : Nat) (hInv : GitInvariant st)
    (hg : patch.gitStatus = none) (hr : patch.githubRepoUrl ≠ some none) :
    GitInvariant (updateProjectRoute st pid uid patch now).1 := by
  unfold updateProjectRoute
  cases hfind : memGetProject st pid with
  | none => simp only [hfind]; exact hInv
  | some project =>
    simp only [hfind]
    by_cases howner : project.userId ≠ uid
    · rw [if_pos howner]
      exact hInv
    · rw [if_neg howner]
      cases hup : memUpdateProject st pid (insertProjectSchemaPartialParse patch) now with
      | error e => simp only [hup]; exact hInv
      | ok r =>
        simp only [hup]
        apply GitInvariant_updateProject st pid _ now r.1 r.2 hInv
          (by rw [hup])
        intro hconn
        have hproj := List.mem_of_find?_eq_some hfind
        have hr2 : r.2 = applyProjectPatch project patch now := by
          rw [memUpdateProject_found st pid _ now project hfind] at hup
          injection hup with h
          exact (Prod.mk.inj h).2.symm
        rw [hr2] at hconn ⊢
        unfold applyProjectPatch at hconn ⊢
        simp only [hg, Option.getD_none] at hconn
        cases hrp : patch.githubRepoUrl with
        | none =>
          simp only [hrp, Option.getD_none]
          exact hInv project hproj hconn
        | some v =>
          simp only [hrp, Option.getD_some]
          intro hv
          rw [hv] at hrp
          exact hr hrp

/-- The connect route preserves the invariant: it records `"connected"` only
together with a non-null remote URL. -/
lemma GitInvariant_connectRoute (st : MemStore) (pid uid : Nat)
    (repoUrl : Option String) (branch : Option String) (now : Nat)
    (hInv : GitInvariant st) :
    GitInvariant (githubConnectRoute st pid uid repoUrl branch now).1 := by
  unfold githubConnectRoute
  cases hfind : memGetProject st pid with
  | none => simp only [hfind]; exact hInv
  | some project =>
    simp only [hfind]
    by_cases howner : project.userId ≠ uid
    · rw [if_pos howner]
      exact hInv
    · rw [if_neg howner]
      by_cases hurl : repoUrl.getD "" = ""
      · rw [if_pos hurl]
        exact hInv
      · rw [if_neg hurl]
        cases hup : memUpdateProject st pid
          { githubRepoUrl := some repoUrl, githubBranch := some (branch.getD "main"),
            gitStatus := some "connected", lastSyncAt := some (some now) } now with
        | error e => simp only [hup]; exact hInv
        | ok r =>
          simp only [hup]
          apply GitInvariant_updateProject st pid
            { githubRepoUrl := some repoUrl, githubBranch := some (branch.getD "main"),
              gitStatus := some "connected", lastSyncAt := some (some now) }
            now r.1 r.2 hInv (by rw [hup])
          intro _
          have hr2 : r.2 = applyProjectPatch project
              { githubRepoUrl := some repoUrl,
                githubBranch := some (branch.getD "main"),
                gitStatus := some "connected",
                lastSyncAt := some (some now) } now := by
            rw [memUpdateProject_found st pid _ now project hfind] at hup
            injection hup with h
            exact (Prod.mk.inj h).2.symm
          rw [hr2]
          unfold applyProjectPatch
          simp only [Option.getD_some]
          cases repoUrl with
          | none => exact absurd rfl hurl
          | some v => simp

/-- The disconnect route preserves the invariant: it resets `gitStatus` to
`"unconnected"`. -/
lemma GitInvariant_disconnectRoute (st : MemStore) (pid uid now : Nat)
    (hInv : GitInvariant st) :
    GitInvariant (githubDisconnectRoute st pid uid now).1 := by
  unfold githubDisconnectRoute
  cases hfind : memGetProject st pid with
  | none => simp only [hfind]; exact hInv
  | some project =>
    simp only [hfind]
    by_cases howner : project.userId ≠ uid
    · rw [if_pos howner]
      exact hInv
    · rw [if_neg howner]
      cases hup : memUpdateProject st pid
        { githubRepoUrl := some none, githubBranch := some "main",
          githubAccessToken := some none, lastSyncAt := some none,
          gitStatus := some "unconnected" } now with
      | error e => simp only [hup]; exact hInv
      | ok r =>
        simp only [hup]
        apply GitInvariant_updateProject st pid
          { githubRepoUrl := some none, githubBranch := some "main",
            githubAccessToken := some none, lastSyncAt := some none,
            gitStatus := some "unconnected" }
          now r.1 r.2 hInv (by rw [hup])
        intro hconn
        have hr2 : r.2 = applyProjectPatch project
            { githubRepoUrl := some none, githubBranch := some "main",
              githubAccessToken := some none, lastSyncAt := some none,
              gitStatus := some "unconnected" } now := by
          rw [memUpdateProject_found st pid _ now project hfind] at hup
          injection hup with h
          exact (Prod.mk.inj h).2.symm
        rw [hr2] at hconn
        unfold applyProjectPatch at hconn
        simp only [Option.getD_some] at hconn
        exact absurd hconn (by decide)

/-- Invariant preservation for a status update on the found project row. -/
lemma GitInvariant_update_on_found (st2 : MemStore) (pid : Nat)
    (u : ProjectPatch) (now : Nat) (p1 : Project) (hInv2 : GitInvariant st2)
    (hg2 : memGetProject st2 pid = some p1)
    (hp : (applyProjectPatch p1 u now).gitStatus = "connected" →
      (applyProjectPatch p1 u now).githubRepoUrl ≠ none) :
    ∀ r2, memUpdateProject st2 pid u now = .ok r2 → GitInvariant r2.1 := by
  intro r2 hup2
  apply GitInvariant_updateProject st2 pid u now r2.1 r2.2 hInv2 (by rw [hup2])
  have hr22 : r2.2 = applyProjectPatch p1 u now := by
    rw [memUpdateProject_found st2 pid u now p1 hg2] at hup2
    injection hup2 with h
    exact (Prod.mk.inj h).2.symm
  rw [hr22]
  exact hp

/-- The clone route preserves the invariant: every status it writes is either
`"syncing"`, `"error"`, or `"connected"` on a project whose remote URL was
checked non-empty at entry and is untouched in between. -/
lemma GitInvariant_cloneRoute (st : MemStore) (pid uid : Nat) (ws : Workspace)
    (gitOk : Bool) (now : Nat) (hInv : GitInvariant st) :
    GitInvariant (githubCloneRoute st pid uid ws gitOk now).1 := by
  unfold githubCloneRoute
  cases hfind : memGetProject st pid with
  | none => simp only [hfind]; exact hInv
  | some project =>
    simp only [hfind]
    by_cases howner : project.userId ≠ uid
    · rw [if_pos howner]; exact hInv
    · rw [if_neg howner]
      cases huser : memGetUser st uid with
      | none => simp only [huser]; exact hInv
      | some user =>
        simp only [huser]
        by_cases htok : user.githubAccessToken.getD "" = ""
        · rw [if_pos htok]; exact hInv
        · rw [if_neg htok]
          by_cases hrepo : project.githubRepoUrl.getD "" = ""
          · rw [if_pos hrepo]; exact hInv
          · rw [if_neg hrepo]
            cases hup1 : memUpdateProject st pid { gitStatus := some "syncing" } now with
            | error e => simp only [hup1]; exact hInv
            | ok r1 =>
              simp only [hup1]
              have hup1' := hup1
              rw [memUpdateProject_found st pid _ now project hfind] at hup1'
              injection hup1' with h
              obtain ⟨h11, h12⟩ := Prod.mk.inj h
              have hInv1 : GitInvariant r1.1 := by
                apply GitInvariant_updateProject st pid
                  { gitStatus := some "syncing" } now r1.1 r1.2 hInv (by rw [hup1])
                intro hconn
                rw [← h12] at hconn
                unfold applyProjectPatch at hconn
                simp only [Option.getD_some] at hconn
                exact absurd hconn (by decide)
              have hg1 : memGetProject r1.1 pid = some r1.2 := by
                rw [← h11, ← h12]
                exact memGetProject_after_replace st pid project _ hfind rfl
              have hInv2 : GitInvariant (syncWorkspaceToProject r1.1 pid ws now).1 :=
                GitInvariant_of_projects_eq r1.1 _
                  (syncWorkspaceToProject_projects_eq _ _ _ _) hInv1
              have hg2 : memGetProject (syncWorkspaceToProject r1.1 pid ws now).1 pid =
                  some r1.2 := by
                unfold memGetProject
                rw [syncWorkspaceToProject_projects_eq]
                exact hg1
              have hrepo1 : r1.2.githubRepoUrl ≠ none := by
                rw [← h12]
                unfold applyProjectPatch
                simp only [Option.getD_none]
                cases hpu : project.githubRepoUrl with
                | none => rw [hpu] at hrepo; exact absurd rfl hrepo
                | some v => simp
              cases gitOk with
              | true =>
                rw [if_pos rfl]
                cases hup2 : memUpdateProject (syncWorkspaceToProject r1.1 pid ws now).1
                  pid { gitStatus := some "connected", lastSyncAt := some (some now) }
                  now with
                | error e => simp only [hup2]; exact hInv2
                | ok r2 =>
                  simp only [hup2]
                  exact GitInvariant_update_on_found _ pid _ now r1.2 hInv2 hg2
                    (fun _ => by
                      unfold applyProjectPatch
                      simp only [Option.getD_none]
                      exact hrepo1) r2 hup2
              | false =>
                rw [if_neg (by simp)]
                cases hup2 : memUpdateProject (syncWorkspaceToProject r1.1 pid ws now).1
                  pid { gitStatus := some "error" } now with
                | error e => simp only [hup2]; exact hInv2
                | ok r2 =>
                  simp only [hup2]
                  exact GitInvariant_update_on_found _ pid _ now r1.2 hInv2 hg2
                    (fun hconn => by
                      unfold applyProjectPatch at hconn
                      simp only [Option.getD_some] at hconn
                      exact absurd hconn (by decide)) r2 hup2

/-- The push route preserves the invariant (same argument as clone, with no
re-import between the status writes). -/
lemma GitInvariant_pushRoute (st : MemStore) (pid uid : Nat) (gitOk : Bool)
    (now : Nat) (hInv : GitInvariant st) :
    GitInvariant (githubPushRoute st pid uid gitOk now).1 := by
  unfold githubPushRoute
  cases hfind : memGetProject st pid with
  | none => simp only [hfind]; exact hInv
  | some project =>
    simp only [hfind]
    by_cases howner : project.userId ≠ uid
    · rw [if_pos howner]; exact hInv
    · rw [if_neg howner]
      cases huser : memGetUser st uid with
      | none => simp only [huser]; exact hInv
      | some user =>
        simp only [huser]
        by_cases htok : user.githubAccessToken.getD "" = ""
        · rw [if_pos htok]; exact hInv
        · rw [if_neg htok]
          by_cases hrepo : project.githubRepoUrl.getD "" = ""
          · rw [if_pos hrepo]; exact hInv
          · rw [if_neg hrepo]
            cases hup1 : memUpdateProject st pid { gitStatus := some "syncing" } now with
            | error e => simp only [hup1]; exact hInv
            | ok r1 =>
              simp only [hup1]
              have hup1' := hup1
              rw [memUpdateProject_found st pid _ now project hfind] at hup1'
              injection hup1' with h
              obtain ⟨h11, h12⟩ := Prod.mk.inj h
              have hInv1 : GitInvariant r1.1 := by
                apply GitInvariant_updateProject st pid
                  { gitStatus := some "syncing" } now r1.1 r1.2 hInv (by rw [hup1])
                intro hconn
                rw [← h12] at hconn
                unfold applyProjectPatch at hconn
                simp only [Option.getD_some] at hconn
                exact absurd hconn (by decide)
              have hg1 : memGetProject r1.1 pid = some r1.2 := by
                rw [← h11, ← h12]
                exact memGetProject_after_replace st pid project _ hfind rfl
              have hrepo1 : r1.2.githubRepoUrl ≠ none := by
                rw [← h12]
                unfold applyProjectPatch
                simp only [Option.getD_none]
                cases hpu : project.githubRepoUrl with
                | none => rw [hpu] at hrepo; exact absurd rfl hrepo
                | some v => simp
              cases gitOk with
              | true =>
                rw [if_pos rfl]
                cases hup2 : memUpdateProject r1.1 pid
                  { gitStatus := some "connected", lastSyncAt := some (some now) }
                  now with
                | error e => simp only [hup2]; exact hInv1
                | ok r2 =>
                  simp only [hup2]
                  exact GitInvariant_update_on_found _ pid _ now r1.2 hInv1 hg1
                    (fun _ => by
                      unfold applyProjectPatch
                      simp only [Option.getD_none]
                      exact hrepo1) r2 hup2
              | false =>
                rw [if_neg (by simp)]
                cases hup2 : memUpdateProject r1.1 pid { gitStatus := some "error" }
                  now with
                | error e => simp only [hup2]; exact hInv1
                | ok r2 =>
                  simp only [hup2]
                  exact GitInvariant_update_on_found _ pid _ now r1.2 hInv1 hg1
                    (fun hconn => by
                      unfold applyProjectPatch at hconn
                      simp only [Option.getD_some] at hconn
                      exact absurd hconn (by decide)) r2 hup2

/-- The pull route preserves the invariant (same shape as clone). -/
lemma GitInvariant_pullRoute (st : MemStore) (pid uid : Nat) (ws : Workspace)
    (gitOk : Bool) (now : Nat) (hInv : GitInvariant st) :
    GitInvariant (githubPullRoute st pid uid ws gitOk now).1 := by
  unfold githubPullRoute
  cases hfind : memGetProject st pid with
  | none => simp only [hfind]; exact hInv
  | some project =>
    simp only [hfind]
    by_cases howner : project.userId ≠ uid
    · rw [if_pos howner]; exact hInv
    · rw [if_neg howner]
      cases huser : memGetUser st uid with
      | none => simp only [huser]; exact hInv
      | some user =>
        simp only [huser]
        by_cases htok : user.githubAccessToken.getD "" = ""
        · rw [if_pos htok]; exact hInv
        · rw [if_neg htok]
          by_cases hrepo : project.githubRepoUrl.getD "" = ""
          · rw [if_pos hrepo]; exact hInv
          · rw [if_neg hrepo]
            cases hup1 : memUpdateProject st pid { gitStatus := some "syncing" } now with
            | error e => simp only [hup1]; exact hInv
            | ok r1 =>
              simp only [hup1]
              have hup1' := hup1
              rw [memUpdateProject_found st pid _ now project hfind] at hup1'
              injection hup1' with h
              obtain ⟨h11, h12⟩ := Prod.mk.inj h
              have hInv1 : GitInvariant r1.1 := by
                apply GitInvariant_updateProject st pid
                  { gitStatus := some "syncing" } now r1.1 r1.2 hInv (by rw [hup1])
                intro hconn
                rw [← h12] at hconn
                unfold applyProjectPatch at hconn
                simp only [Option.getD_some] at hconn
                exact absurd hconn (by decide)
              have hg1 : memGetProject r1.1 pid = some r1.2 := by
                rw [← h11, ← h12]
                exact memGetProject_after_replace st pid project _ hfind rfl
              have hInv2 : GitInvariant (syncWorkspaceToProject r1.1 pid ws now).1 :=
                GitInvariant_of_projects_eq r1.1 _
                  (syncWorkspaceToProject_projects_eq _ _ _ _) hInv1
              have hg2 : memGetProject (syncWorkspaceToProject r1.1 pid ws now).1 pid =
                  some r1.2 := by
                unfold memGetProject
                rw [syncWorkspaceToProject_projects_eq]
                exact hg1
              have hrepo1 : r1.2.githubRepoUrl ≠ none := by
                rw [← h12]
                unfold applyProjectPatch
                simp only [Option.getD_none]
                cases hpu : project.githubRepoUrl with
                | none => rw [hpu] at hrepo; exact absurd rfl hrepo
                | some v => simp
              cases gitOk with
              | true =>
                rw [if_pos rfl]
                cases hup2 : memUpdateProject (syncWorkspaceToProject r1.1 pid ws now).1
                  pid { gitStatus := some "connected", lastSyncAt := some (some now) }
                  now with
                | error e => simp only [hup2]; exact hInv2
                | ok r2 =>
                  simp only [hup2]
                  exact GitInvariant_update_on_found _ pid _ now r1.2 hInv2 hg2
                    (fun _ => by
                      unfold applyProjectPatch
                      simp only [Option.getD_none]
                      exact hrepo1) r2 hup2
              | false =>
                rw [if_neg (by simp)]
                cases hup2 : memUpdateProject (syncWorkspaceToProject r1.1 pid ws now).1
                  pid { gitStatus := some "error" } now with
                | error e => simp only [hup2]; exact hInv2
                | ok r2 =>
                  simp only [hup2]
                  exact GitInvariant_update_on_found _ pid _ now r1.2 hInv2 hg2
                    (fun hconn => by
                      unfold applyProjectPatch at hconn
                      simp only [Option.getD_some] at hconn
                      exact absurd hconn (by decide)) r2 hup2

/-- C4 amended: the invariant "`gitStatus` is `connected` only if
`githubRepoUrl` is non-null" holds in every store reachable from the empty
store through the exposed project operations, provided the generic create and
update payloads leave `gitStatus` unset and update payloads do not null
`githubRepoUrl` (`safeOp`); the dedicated GitHub routes are unrestricted. A
create or update payload that sets `gitStatus` can violate it (see the
counterexample). -/
theorem gitStatus_invariant_for_safe_ops (ops : List ProjOp)
    (hsafe : ∀ op ∈ ops, safeOp op = true) :
    GitInvariant (ops.foldl applyProjOp emptyMemStore) := by
  have hstep : ∀ (op : ProjOp) (st : MemStore), GitInvariant st →
      safeOp op = true → GitInvariant (applyProjOp st op) := by
    intro op st hInv hop
    cases op with
    | createOp uid body now =>
      exact GitInvariant_createProjectRoute st uid body now hInv
        (by simpa [safeOp] using hop)
    | updateOp pid uid patch now =>
      have h2 : patch.gitStatus = none ∧ ¬patch.githubRepoUrl = some none := by
        simpa [safeOp] using hop
      exact GitInvariant_updateProjectRoute st pid uid patch now hInv h2.1 h2.2
    | connectOp pid uid repoUrl branch now =>
      exact GitInvariant_connectRoute st pid uid repoUrl branch now hInv
    | cloneOp pid uid ws gitOk now =>
      exact GitInvariant_cloneRoute st pid uid ws gitOk now hInv
    | pushOp pid uid gitOk now =>
      exact GitInvariant_pushRoute st pid uid gitOk now hInv
    | pullOp pid uid ws gitOk now =>
      exact GitInvariant_pullRoute st pid uid ws gitOk now hInv
    | disconnectOp pid uid now =>
      exact GitInvariant_disconnectRoute st pid uid now hInv
  have hfold : ∀ (l : List ProjOp) (st : MemStore), GitInvariant st →
      (∀ op ∈ l, safeOp op = true) → GitInvariant (l.foldl applyProjOp st) := by
    intro l
    induction l with
    | nil => intro st hInv _; exact hInv
    | cons op t ih =>
      intro st hInv hl
      rw [List.foldl_cons]
      exact ih (applyProjOp st op)
        (hstep op st hInv (hl op (List.mem_cons_self op t)))
        (fun o ho => hl o (List.mem_cons_of_mem op ho))
  exact hfold ops emptyMemStore (fun p hp => absurd hp (List.not_mem_nil p)) hsafe

/-- Witness for C4 (amended): a concrete safe sequence — create, connect with
a URL, then a failing push — satisfies the invariant at the end. -/
theorem gitStatus_invariant_for_safe_ops_witness :
    (∀ op ∈ ([.createOp 0 { userId := 0, name := "p" } 0,
              .connectOp 0 0 (some "https://github.com/u/r") none 1,
              .pushOp 0 0 false 2] : List ProjOp), safeOp op = true) ∧
    GitInvariant (([.createOp 0 { userId := 0, name := "p" } 0,
                    .connectOp 0 0 (some "https://github.com/u/r") none 1,
                    .pushOp 0 0 false 2] : List ProjOp).foldl
      applyProjOp emptyMemStore) :=
  ⟨by decide,
   gitStatus_invariant_for_safe_ops
     [.createOp 0 { userId := 0, name := "p" } 0,
      .connectOp 0 0 (some "https://github.com/u/r") none 1,
      .pushOp 0 0 false 2] (by decide)⟩

end CodeFree
